import Mathlib

/-!
Shallow embedding of `simple-game-patcher.py`: the patch-state engine
(`GamePatcher.apply` / `revert` / `status`), its state store and the
conflict-resolution protocol, together with proofs of the specified
properties.

Modelling conventions:
* A file path is the list of its segments relative to the relevant root
  (target root, backup root, patch source root).
* File content is a `String` of bytes; SHA-256 is modelled as an injective
  fingerprint (digest equality coincides with byte equality), so
  `computeChecksum` is the identity on content.
* The target tree is a partial map `Path → Option Content`; the backup tree
  is a finite association list so that directory pruning (which enumerates
  the backup tree) stays computable.  The set of directories currently
  existing under the backup root is tracked explicitly for the pruning pass.
* The interactive conflict prompt (`_handle_conflict`) is a pre-resolved
  decision function `Resolver`, as §4.3 of the design requires for the
  test surface.
* A mid-execution I/O failure during `apply` (an exception raised while
  copying the K-th patch file) is injected through the `failAt` index.
-/

namespace GamePatcherModel

/-- A path relative to a root, as its list of segments. -/
abbrev Path := List String

/-- File content (byte string). -/
abbrev Content := String

/-- A hex digest. -/
abbrev Checksum := String

/-- `GamePatcher._compute_checksum`: SHA-256 of the file content, modelled as
an injective fingerprint, so the digest is the content itself.  Equality of
digests coincides with equality of byte content (collision freeness). -/
def computeChecksum (c : Content) : Checksum := c

/-- The `PatchedFile` dataclass: one tracked entry of the persisted state. -/
structure PatchedFile where
  relative_path : Path
  original_checksum : Option Checksum
  patched_checksum : Checksum
  has_backup : Bool
deriving DecidableEq

/-- The persisted state mapping (a Python dict: keyed list, insertion order). -/
abbrev StateMap := List (Path × PatchedFile)

/-- A finite tree of files (backup tree, patch source tree). -/
abbrev FileMap := List (Path × Content)

/-- Dict lookup in a `StateMap`. -/
def lookupState : StateMap → Path → Option PatchedFile
  | [], _ => none
  | (q, e) :: rest, p => if p = q then some e else lookupState rest p

/-- Dict assignment `state[p] = e`: replaces in place or appends. -/
def upsert : StateMap → Path → PatchedFile → StateMap
  | [], p, e => [(p, e)]
  | (q, x) :: rest, p, e =>
      if p = q then (p, e) :: rest else (q, x) :: upsert rest p e

/-- Lookup of a file in a finite file tree. -/
def lookupFM : FileMap → Path → Option Content
  | [], _ => none
  | (q, c) :: rest, p => if p = q then some c else lookupFM rest p

/-- Remove a file from a finite file tree (`Path.unlink`). -/
def eraseFM : FileMap → Path → FileMap
  | [], _ => []
  | (q, c) :: rest, p =>
      if q = p then eraseFM rest p else (q, c) :: eraseFM rest p

/-- Overwrite (or create) a file in a finite file tree (`shutil.copy2`). -/
def setFM (m : FileMap) (p : Path) (c : Content) : FileMap :=
  (p, c) :: eraseFM m p

/-- Point update of a partial map of files (write, or delete with `none`). -/
def fset (m : Path → Option Content) (p : Path) (v : Option Content) :
    Path → Option Content :=
  fun q => if q = p then v else m q

/-- The keys of a keyed list. -/
def keysOf {α : Type} (l : List (Path × α)) : List Path := l.map Prod.fst

/-- A keyed list with no duplicate keys (every Python dict satisfies this). -/
def nodupKeys {α : Type} (l : List (Path × α)) : Prop := (l.map Prod.fst).Nodup

instance nodupKeys_decidable {α : Type} (l : List (Path × α)) :
    Decidable (nodupKeys l) :=
  inferInstanceAs (Decidable (l.map Prod.fst).Nodup)

/-- `underDir d f`: directory `d` is a proper ancestor of path `f`. -/
def underDir : Path → Path → Bool
  | [], f => !f.isEmpty
  | _ :: _, [] => false
  | a :: d, b :: f => if a = b then underDir d f else false

/-- The proper, nonempty ancestor directories of a path
(`Path.parent` chain below the root). -/
def parentsOf : Path → List Path
  | [] => []
  | [_] => []
  | a :: rest => [a] :: (parentsOf rest).map (a :: ·)

/-- `backup_file.parent.mkdir(parents=True, exist_ok=True)`: add every missing
ancestor directory of `rel` to the directory set. -/
def addParents (rel : Path) (dirs : List Path) : List Path :=
  dirs ++ (parentsOf rel).filter (fun d => decide (d ∉ dirs))

/-- `any(dirpath.iterdir())`: the directory holds a file or another directory
of the current tree strictly below it. -/
def dirNonEmpty (d : Path) (files : FileMap) (dirs : List Path) : Bool :=
  files.any (fun fc => underDir d fc.1) || dirs.any (fun d2 => underDir d d2)

/-- One depth level of the bottom-up pruning loop of `revert`: remove every
empty directory whose depth is `n`.  Directories of equal depth cannot
contain one another, so the sequential `rmdir` calls of the source at one
depth are independent. -/
def pruneLevel (files : FileMap) (n : Nat) (dirs : List Path) : List Path :=
  dirs.filter (fun d => decide (d.length ≠ n) || dirNonEmpty d files dirs)

/-- Upper bound on the depth of the tracked directories. -/
def maxLen (dirs : List Path) : Nat := dirs.foldl (fun m d => max m d.length) 0

/-- The pruning loop, from depth `n` down to depth `1`
(`sorted(rglob("*"), key=len(parts), reverse=True)`). -/
def pruneGo (files : FileMap) : Nat → List Path → List Path
  | 0, dirs => dirs
  | n + 1, dirs => pruneGo files n (pruneLevel files (n + 1) dirs)

/-- `revert`'s cleanup: remove now-empty directories under the backup root,
deepest first. -/
def pruneDirs (files : FileMap) (dirs : List Path) : List Path :=
  pruneGo files (maxLen dirs) dirs

/-- The world one `GamePatcher` instance acts on: the target tree (with the
existence of the target root itself), the backup tree with its directories,
and the persisted state file (`none` when no `state.json` exists). -/
structure World where
  targetRootExists : Bool
  target : Path → Option Content
  backup : FileMap
  backupDirs : List Path
  stateFile : Option StateMap

/-- `GamePatcher._load_state`: the empty mapping when no state file exists. -/
def loadState (w : World) : StateMap := w.stateFile.getD []

/-- `GamePatcher._check_conflicts`: a tracked target file whose live
fingerprint differs from the recorded `patched_checksum` is a conflict
(the only conflict kind, `"modified"`). -/
def check_conflicts (relPath : Path) (target : Path → Option Content)
    (st : StateMap) : Bool :=
  match target relPath with
  | none => false
  | some c =>
      match lookupState st relPath with
      | some e => decide (computeChecksum c ≠ e.patched_checksum)
      | none => false

/-- The three resolution actions offered by `_handle_conflict`. -/
inductive Action where
  | abort
  | rebackup
  | force
deriving DecidableEq

/-- A pre-resolved conflict decision provider (the injected replacement of the
interactive prompt, per §4.3/§9 of the design). -/
abbrev Resolver := Path → Action

/-- One entry of `apply`'s planning pass. -/
structure PendingOp where
  relative_path : Path
  patch_content : Content
  needs_backup : Bool
  force_rebackup : Bool
deriving DecidableEq

/-- Whether `apply`'s planning pass detects a conflict for this candidate
(`needs_backup and self._check_conflicts(...)`). -/
def candConflict (w : World) (st : StateMap) (rel : Path) : Bool :=
  (w.target rel).isSome && check_conflicts rel w.target st

/-- Planning of a single candidate: `none` means the resolver chose Abort. -/
def planCand (w : World) (st : StateMap) (res : Resolver)
    (cand : Path × Content) : Option PendingOp :=
  let needsBackup := (w.target cand.1).isSome
  if candConflict w st cand.1 then
    match res cand.1 with
    | .abort => none
    | .force => some ⟨cand.1, cand.2, false, false⟩
    | .rebackup => some ⟨cand.1, cand.2, needsBackup, true⟩
  else
    some ⟨cand.1, cand.2, needsBackup, false⟩

/-- The planning pass over all candidates, in enumeration order; `none` means
the whole apply was aborted by the resolver. -/
def planOps (w : World) (st : StateMap) (res : Resolver) :
    List (Path × Content) → Option (List PendingOp)
  | [] => some []
  | c :: rest =>
      match planCand w st res c with
      | none => none
      | some op => (planOps w st res rest).map (op :: ·)

/-- The candidates for which `_handle_conflict` is invoked, in order; the
prompt loop stops when a resolution is Abort. -/
def promptedPaths (w : World) (st : StateMap) (res : Resolver) :
    List (Path × Content) → List Path
  | [] => []
  | c :: rest =>
      if candConflict w st c.1 then
        c.1 ::
          (match res c.1 with
           | .abort => []
           | _ => promptedPaths w st res rest)
      else promptedPaths w st res rest

/-- `GamePatcher._restore_file` acting on the target and backup trees. -/
def restore_file (tgt : Path → Option Content) (bak : FileMap) (rel : Path)
    (delete_backup : Bool) : (Path → Option Content) × FileMap :=
  match lookupFM bak rel with
  | some c => (fset tgt rel (some c), if delete_backup then eraseFM bak rel else bak)
  | none => (fset tgt rel none, bak)

/-- `apply`'s rollback loop: restore every already-patched file from its
backup without deleting the backup. -/
def rollbackFiles (patched : List Path) (tgt : Path → Option Content)
    (bak : FileMap) : (Path → Option Content) × FileMap :=
  patched.foldl (fun tb rel => restore_file tb.1 tb.2 rel false) (tgt, bak)

/-- The condition under which `apply`'s execution pass takes a fresh backup:
`relative_path not in state or not state[relative_path].has_backup or
force_rebackup` (guarded by `needs_backup`). -/
def freshBackup (st0 : StateMap) (op : PendingOp) : Bool :=
  op.needs_backup &&
    (match lookupState st0 op.relative_path with
     | none => true
     | some e => !e.has_backup || op.force_rebackup)

/-- The mutable data of `apply`'s execution pass. -/
structure ExecSt where
  target : Path → Option Content
  backup : FileMap
  backupDirs : List Path
  new_state : StateMap
  patched : List Path

/-- Result of the execution pass: completed, or an exception was raised with
the file trees in the given intermediate condition. -/
inductive ExecOut where
  | ok (es : ExecSt)
  | failed (es : ExecSt)

/-- The backup phase of one execution step: the fresh-backup copy with its
recorded fingerprint (`none` when `shutil.copy2` raises because the target
file to back up is unreadable), or the preserved original checksum when the
existing backup is kept, or no backup at all. -/
def backupStep (st0 : StateMap) (op : PendingOp) (es : ExecSt) :
    Option (Option Checksum × FileMap × List Path) :=
  if freshBackup st0 op then
    (es.target op.relative_path).map (fun tc =>
      (some (computeChecksum tc),
       setFM es.backup op.relative_path tc,
       addParents op.relative_path es.backupDirs))
  else if op.needs_backup then
    some ((lookupState st0 op.relative_path).bind
            (fun e => e.original_checksum),
          es.backup, es.backupDirs)
  else
    some (none, es.backup, es.backupDirs)

/-- The copy-and-record phase of one execution step: copy the patch file onto
the target and record the new `PatchedFile` entry. -/
def applyOp (op : PendingOp) (orig : Option Checksum) (bak : FileMap)
    (dirs : List Path) (es : ExecSt) : ExecSt where
  target := fset es.target op.relative_path (some op.patch_content)
  backup := bak
  backupDirs := dirs
  new_state := upsert es.new_state op.relative_path
    ⟨op.relative_path, orig, computeChecksum op.patch_content, op.needs_backup⟩
  patched := es.patched ++ [op.relative_path]

/-- `apply`'s execution pass, in planning order.  The backup decision reads
the state `st0` loaded at the start of `apply`.  `failAt = some i` injects an
I/O failure while copying the patch file of the `i`-th operation (after its
backup step); reading a missing target file for a fresh backup also raises. -/
def execOps (st0 : StateMap) (failAt : Option Nat) :
    List PendingOp → Nat → ExecSt → ExecOut
  | [], _, es => .ok es
  | op :: rest, i, es =>
      match backupStep st0 op es with
      | none => .failed es
      | some (orig, bak, dirs) =>
          if failAt = some i then
            .failed { es with backup := bak, backupDirs := dirs }
          else
            execOps st0 failAt rest (i + 1) (applyOp op orig bak dirs es)

/-- How one `apply` call terminates. -/
inductive Outcome where
  | success (n : Nat)
  | noPatches
  | aborted
  | targetMissing
  | patchSourceMissing
  | patchingFailed
deriving DecidableEq

/-- The process exit status `main` produces for each outcome: `PatcherError`
exits 1, everything else (including a clean abort and the empty-source no-op)
exits 0. -/
def exitCode : Outcome → Nat
  | .success _ => 0
  | .noPatches => 0
  | .aborted => 0
  | .targetMissing => 1
  | .patchSourceMissing => 1
  | .patchingFailed => 1

/-- Result of one `apply` call: the final world, the outcome, and the paths
for which the conflict resolver was consulted. -/
structure ApplyResult where
  world : World
  outcome : Outcome
  consulted : List Path

/-- `GamePatcher.apply`.  `patches = none` models a missing patch source root
(`_get_patch_files` raising); `patches = some cands` gives the enumerated
patch files (relative path and content) in enumeration order. -/
def applyModel (w : World) (patches : Option (List (Path × Content)))
    (res : Resolver) (failAt : Option Nat) : ApplyResult :=
  if !w.targetRootExists then ⟨w, .targetMissing, []⟩
  else
    match patches with
    | none => ⟨w, .patchSourceMissing, []⟩
    | some cands =>
        if cands.isEmpty then ⟨w, .noPatches, []⟩
        else
          let st := loadState w
          match planOps w st res cands with
          | none => ⟨w, .aborted, promptedPaths w st res cands⟩
          | some ops =>
              match execOps st failAt ops 0 ⟨w.target, w.backup, w.backupDirs, st, []⟩ with
              | .ok es =>
                  ⟨{ w with
                      target := es.target
                      backup := es.backup
                      backupDirs := es.backupDirs
                      stateFile := some es.new_state },
                   .success es.patched.length,
                   promptedPaths w st res cands⟩
              | .failed es =>
                  let tb := rollbackFiles es.patched es.target es.backup
                  ⟨{ w with
                      target := tb.1
                      backup := tb.2
                      backupDirs := es.backupDirs
                      stateFile := some st },
                   .patchingFailed,
                   promptedPaths w st res cands⟩

/-- Result of one `revert` call: the final world and the count of entries
processed (`0` together with an unchanged world when no patches were
applied). -/
structure RevertResult where
  world : World
  reverted : Nat

/-- `GamePatcher.revert`. -/
def revertModel (w : World) : RevertResult :=
  let st := loadState w
  if st.isEmpty then ⟨w, 0⟩
  else
    let tb := st.foldl (fun (tb : (Path → Option Content) × FileMap) pe =>
      restore_file tb.1 tb.2 pe.1 true) (w.target, w.backup)
    ⟨{ w with
        target := tb.1
        backup := tb.2
        stateFile := none
        backupDirs := pruneDirs tb.2 w.backupDirs },
     st.length⟩

/-- The classification `status` prints for one tracked entry. -/
inductive FileStatus where
  | missing
  | clean
  | modified
deriving DecidableEq

/-- `GamePatcher.status`, for one tracked entry keyed by `rel`. -/
def statusOf (w : World) (rel : Path) (e : PatchedFile) : FileStatus :=
  match w.target rel with
  | none => .missing
  | some c => if computeChecksum c = e.patched_checksum then .clean else .modified

/-- The documented invariant of every persisted `TrackedFile` entry:
no recorded original fingerprint means no backup, and a recorded backup flag
means the backup file is on disk. -/
def StateInv (st : StateMap) (bak : FileMap) : Prop :=
  ∀ p e, lookupState st p = some e →
    (e.original_checksum = none → e.has_backup = false) ∧
    (e.has_backup = true → (lookupFM bak p).isSome = true)

/-! ### Association-list and map lemmas -/

theorem fset_apply (m : Path → Option Content) (p : Path) (v : Option Content)
    (q : Path) : fset m p v q = if q = p then v else m q := rfl

@[simp]
theorem lookupState_nil (p : Path) : lookupState [] p = none := rfl

theorem lookupState_cons (q : Path) (e : PatchedFile) (rest : StateMap) (p : Path) :
    lookupState ((q, e) :: rest) p = if p = q then some e else lookupState rest p := rfl

@[simp]
theorem lookupFM_nil (p : Path) : lookupFM [] p = none := rfl

theorem lookupFM_cons (q : Path) (c : Content) (rest : FileMap) (p : Path) :
    lookupFM ((q, c) :: rest) p = if p = q then some c else lookupFM rest p := rfl

theorem lookupFM_eraseFM (m : FileMap) (p q : Path) :
    lookupFM (eraseFM m p) q = if q = p then none else lookupFM m q := by
  induction m with
  | nil => simp [eraseFM]
  | cons hd rest ih =>
      obtain ⟨a, c⟩ := hd
      simp only [eraseFM]
      by_cases hap : a = p
      · subst hap
        rw [if_pos rfl, ih]
        by_cases hqa : q = a
        · simp [hqa]
        · simp [lookupFM_cons, hqa]
      · rw [if_neg hap]
        by_cases hqa : q = a
        · have hqp : ¬q = p := by rw [hqa]; exact hap
          simp [lookupFM_cons, hqa, hqp, hap]
        · simp [lookupFM_cons, hqa, ih]

theorem lookupFM_setFM (m : FileMap) (p : Path) (c : Content) (q : Path) :
    lookupFM (setFM m p c) q = if q = p then some c else lookupFM m q := by
  by_cases hqp : q = p <;> simp [setFM, lookupFM_cons, hqp, lookupFM_eraseFM]

theorem lookupState_upsert (st : StateMap) (p : Path) (e : PatchedFile) (q : Path) :
    lookupState (upsert st p e) q = if q = p then some e else lookupState st q := by
  induction st with
  | nil => by_cases hqp : q = p <;> simp [upsert, lookupState_cons, hqp]
  | cons hd rest ih =>
      obtain ⟨a, x⟩ := hd
      by_cases hpa : p = a
      · subst hpa
        by_cases hqp : q = p <;> simp [upsert, lookupState_cons, hqp]
      · by_cases hqa : q = a
        · subst hqa
          simp [upsert, hpa, lookupState_cons, Ne.symm hpa]
        · simp [upsert, hpa, lookupState_cons, hqa, ih]

theorem keysOf_nil {α : Type} : keysOf ([] : List (Path × α)) = [] := rfl

theorem keysOf_cons {α : Type} (a : Path) (x : α) (l : List (Path × α)) :
    keysOf ((a, x) :: l) = a :: keysOf l := rfl

theorem nodupKeys_nil {α : Type} : nodupKeys ([] : List (Path × α)) := List.nodup_nil

theorem nodupKeys_cons_iff {α : Type} (a : Path) (x : α) (l : List (Path × α)) :
    nodupKeys ((a, x) :: l) ↔ a ∉ keysOf l ∧ nodupKeys l := by
  exact List.nodup_cons

theorem mem_keys_upsert (st : StateMap) (p : Path) (e : PatchedFile) (q : Path) :
    q ∈ keysOf (upsert st p e) ↔ q ∈ keysOf st ∨ q = p := by
  induction st with
  | nil =>
      rw [show upsert [] p e = [(p, e)] from rfl, keysOf_cons, keysOf_nil]
      simp
  | cons hd rest ih =>
      obtain ⟨a, x⟩ := hd
      simp only [upsert]
      by_cases hpa : p = a
      · subst hpa
        rw [if_pos rfl, keysOf_cons, keysOf_cons]
        simp only [List.mem_cons]
        tauto
      · rw [if_neg hpa, keysOf_cons, keysOf_cons]
        simp only [List.mem_cons, ih]
        tauto

theorem nodupKeys_upsert (st : StateMap) (p : Path) (e : PatchedFile)
    (h : nodupKeys st) : nodupKeys (upsert st p e) := by
  induction st with
  | nil =>
      rw [show upsert [] p e = [(p, e)] from rfl, nodupKeys_cons_iff, keysOf_nil]
      exact ⟨List.not_mem_nil p, nodupKeys_nil⟩
  | cons hd rest ih =>
      obtain ⟨a, x⟩ := hd
      rw [nodupKeys_cons_iff] at h
      simp only [upsert]
      by_cases hpa : p = a
      · subst hpa
        rw [if_pos rfl, nodupKeys_cons_iff]
        exact h
      · rw [if_neg hpa, nodupKeys_cons_iff]
        refine ⟨?_, ih h.2⟩
        intro hmem
        rcases (mem_keys_upsert rest p e a).mp hmem with h1 | h1
        · exact h.1 h1
        · exact hpa h1.symm

theorem lookupState_eq_none_iff (st : StateMap) (p : Path) :
    lookupState st p = none ↔ p ∉ keysOf st := by
  induction st with
  | nil => simp [keysOf]
  | cons hd rest ih =>
      obtain ⟨a, x⟩ := hd
      rw [lookupState_cons, keysOf_cons]
      by_cases hpa : p = a
      · subst hpa
        simp
      · rw [if_neg hpa]
        simp only [List.mem_cons, ih]
        tauto

theorem lookupFM_eq_none_iff (m : FileMap) (p : Path) :
    lookupFM m p = none ↔ p ∉ keysOf m := by
  induction m with
  | nil => simp [keysOf]
  | cons hd rest ih =>
      obtain ⟨a, x⟩ := hd
      rw [lookupFM_cons, keysOf_cons]
      by_cases hpa : p = a
      · subst hpa
        simp
      · rw [if_neg hpa]
        simp only [List.mem_cons, ih]
        tauto

theorem lookupState_mem (st : StateMap) (p : Path) (e : PatchedFile)
    (h : lookupState st p = some e) : (p, e) ∈ st := by
  induction st with
  | nil => simp at h
  | cons hd rest ih =>
      obtain ⟨a, x⟩ := hd
      rw [lookupState_cons] at h
      by_cases hpa : p = a
      · subst hpa
        rw [if_pos rfl] at h
        injection h with h1
        subst h1
        exact List.mem_cons_self _ _
      · rw [if_neg hpa] at h
        exact List.mem_cons_of_mem _ (ih h)

theorem lookupState_of_mem (st : StateMap) (p : Path) (e : PatchedFile)
    (hnd : nodupKeys st) (h : (p, e) ∈ st) : lookupState st p = some e := by
  induction st with
  | nil => simp at h
  | cons hd rest ih =>
      obtain ⟨a, x⟩ := hd
      rw [nodupKeys_cons_iff] at hnd
      rcases List.mem_cons.mp h with h1 | h1
      · injection h1 with h1a h1b
        subst h1a
        subst h1b
        simp [lookupState_cons]
      · by_cases hpa : p = a
        · subst hpa
          exact absurd (List.mem_map_of_mem Prod.fst h1) hnd.1
        · rw [lookupState_cons, if_neg hpa]
          exact ih hnd.2 h1

/-! ### Directory-structure lemmas -/

theorem underDir_iff (d f : Path) :
    underDir d f = true ↔ ∃ s, s ≠ [] ∧ f = d ++ s := by
  induction d generalizing f with
  | nil =>
      cases f with
      | nil =>
          simp only [underDir, List.isEmpty_nil, Bool.not_true]
          constructor
          · intro h
            cases h
          · rintro ⟨s, hs, heq⟩
            rw [List.nil_append] at heq
            exact absurd heq.symm hs
      | cons b f' =>
          simp only [underDir, List.isEmpty_cons, Bool.not_false]
          constructor
          · intro _
            exact ⟨b :: f', List.cons_ne_nil b f', (List.nil_append _).symm⟩
          · intro _
            trivial
  | cons a d ih =>
      cases f with
      | nil =>
          simp only [underDir]
          constructor
          · intro h
            cases h
          · rintro ⟨s, hs, heq⟩
            rw [List.cons_append] at heq
            cases heq
      | cons b f' =>
          simp only [underDir]
          by_cases hab : a = b
          · subst hab
            rw [if_pos rfl, ih f']
            constructor
            · rintro ⟨s, hs, rfl⟩
              exact ⟨s, hs, by rw [List.cons_append]⟩
            · rintro ⟨s, hs, heq⟩
              rw [List.cons_append] at heq
              injection heq with _ heq2
              exact ⟨s, hs, heq2⟩
          · rw [if_neg hab]
            constructor
            · intro h
              cases h
            · rintro ⟨s, hs, heq⟩
              rw [List.cons_append] at heq
              injection heq with heq1 _
              exact absurd heq1.symm hab

theorem underDir_length (d f : Path) (h : underDir d f = true) :
    d.length < f.length := by
  rw [underDir_iff] at h
  obtain ⟨s, hs, rfl⟩ := h
  have hpos : 0 < s.length := List.length_pos.mpr hs
  rw [List.length_append]
  omega

theorem underDir_trans (a b c : Path) (h1 : underDir a b = true)
    (h2 : underDir b c = true) : underDir a c = true := by
  rw [underDir_iff] at h1 h2 ⊢
  obtain ⟨s, hs, rfl⟩ := h1
  obtain ⟨t, _, rfl⟩ := h2
  refine ⟨s ++ t, ?_, by rw [List.append_assoc]⟩
  intro hn
  exact hs (List.append_eq_nil.mp hn).1

theorem mem_pruneLevel (files : FileMap) (n : Nat) (dirs : List Path) (d : Path) :
    d ∈ pruneLevel files n dirs ↔
      d ∈ dirs ∧ (d.length ≠ n ∨ dirNonEmpty d files dirs = true) := by
  simp [pruneLevel, List.mem_filter]

theorem pruneGo_subset (files : FileMap) :
    ∀ (n : Nat) (dirs : List Path) (d : Path), d ∈ pruneGo files n dirs → d ∈ dirs := by
  intro n
  induction n with
  | zero => intro dirs d h; exact h
  | succ n ih =>
      intro dirs d h
      have h2 := ih (pruneLevel files (n + 1) dirs) d h
      exact ((mem_pruneLevel files (n + 1) dirs d).mp h2).1

theorem pruneGo_keep (files : FileMap) :
    ∀ (n : Nat) (dirs : List Path) (d : Path), d ∈ dirs →
      (∃ fc ∈ files, underDir d fc.1 = true) → d ∈ pruneGo files n dirs := by
  intro n
  induction n with
  | zero => intro dirs d hd _; exact hd
  | succ n ih =>
      intro dirs d hd hf
      refine ih (pruneLevel files (n + 1) dirs) d ?_ hf
      rw [mem_pruneLevel]
      refine ⟨hd, Or.inr ?_⟩
      obtain ⟨fc, hfc, hu⟩ := hf
      unfold dirNonEmpty
      rw [Bool.or_eq_true, List.any_eq_true]
      exact Or.inl ⟨fc, hfc, hu⟩

theorem pruneGo_no_empty (files : FileMap) :
    ∀ (n : Nat) (dirs : List Path),
      (∀ d ∈ dirs, n < d.length → ∃ fc ∈ files, underDir d fc.1 = true) →
      ∀ d ∈ pruneGo files n dirs, 0 < d.length →
        ∃ fc ∈ files, underDir d fc.1 = true := by
  intro n
  induction n with
  | zero =>
      intro dirs hinv d hd hlen
      exact hinv d hd hlen
  | succ n ih =>
      intro dirs hinv d hd hlen
      refine ih (pruneLevel files (n + 1) dirs) ?_ d hd hlen
      intro d' hd' hl'
      have hmem := (mem_pruneLevel files (n + 1) dirs d').mp hd'
      rcases Nat.lt_or_ge (n + 1) d'.length with hgt | hle
      · exact hinv d' hmem.1 hgt
      · have hlen' : d'.length = n + 1 := by omega
        rcases hmem.2 with hne | hne
        · exact absurd hlen' hne
        · unfold dirNonEmpty at hne
          rw [Bool.or_eq_true, List.any_eq_true, List.any_eq_true] at hne
          rcases hne with ⟨fc, hfc, hu⟩ | ⟨d2, hd2, hu⟩
          · exact ⟨fc, hfc, hu⟩
          · have hlt : n + 1 < d2.length := by
              have := underDir_length d' d2 hu
              omega
            obtain ⟨fc, hfc, hu2⟩ := hinv d2 hd2 hlt
            exact ⟨fc, hfc, underDir_trans d' d2 fc.1 hu hu2⟩

theorem foldlMax_le (l : List Path) :
    ∀ init : Nat, init ≤ l.foldl (fun m d => max m d.length) init := by
  induction l with
  | nil => intro init; exact le_refl _
  | cons a l ih =>
      intro init
      calc init ≤ max init a.length := le_max_left _ _
        _ ≤ l.foldl (fun m d => max m d.length) (max init a.length) := ih _

theorem foldlMax_mem (l : List Path) (d : Path) (h : d ∈ l) :
    ∀ init : Nat, d.length ≤ l.foldl (fun m x => max m x.length) init := by
  induction l with
  | nil => cases h
  | cons a l ih =>
      intro init
      rcases List.mem_cons.mp h with heq | h'
      · subst heq
        calc d.length ≤ max init d.length := le_max_right _ _
          _ ≤ l.foldl (fun m x => max m x.length) (max init d.length) := foldlMax_le l _
      · exact ih h' _

theorem maxLen_ge (dirs : List Path) (d : Path) (h : d ∈ dirs) :
    d.length ≤ maxLen dirs :=
  foldlMax_mem dirs d h 0

theorem pruneDirs_subset (files : FileMap) (dirs : List Path) (d : Path)
    (h : d ∈ pruneDirs files dirs) : d ∈ dirs :=
  pruneGo_subset files (maxLen dirs) dirs d h

theorem pruneDirs_keep (files : FileMap) (dirs : List Path) (d : Path)
    (hd : d ∈ dirs) (hf : ∃ fc ∈ files, underDir d fc.1 = true) :
    d ∈ pruneDirs files dirs :=
  pruneGo_keep files (maxLen dirs) dirs d hd hf

theorem pruneDirs_no_empty (files : FileMap) (dirs : List Path) (d : Path)
    (hd : d ∈ pruneDirs files dirs) (hne : d ≠ []) :
    ∃ fc ∈ files, underDir d fc.1 = true := by
  refine pruneGo_no_empty files (maxLen dirs) dirs ?_ d hd (List.length_pos.mpr hne)
  intro d' hd' hgt
  have := maxLen_ge dirs d' hd'
  omega

/-! ### Planning-pass lemmas -/

theorem planOps_cons (w : World) (st : StateMap) (res : Resolver)
    (c : Path × Content) (rest : List (Path × Content)) :
    planOps w st res (c :: rest) =
      match planCand w st res c with
      | none => none
      | some op => (planOps w st res rest).map (op :: ·) := rfl

theorem planCand_rel (w : World) (st : StateMap) (res : Resolver)
    (c : Path × Content) (op : PendingOp) (h : planCand w st res c = some op) :
    op.relative_path = c.1 := by
  simp only [planCand] at h
  by_cases hc : candConflict w st c.1 = true
  · rw [if_pos hc] at h
    cases hres : res c.1 <;> rw [hres] at h
    · cases h
    · injection h with h1
      subst h1
      rfl
    · injection h with h1
      subst h1
      rfl
  · rw [if_neg hc] at h
    injection h with h1
    subst h1
    rfl

theorem planCand_no_conflict (w : World) (st : StateMap) (res : Resolver)
    (c : Path × Content) (hc : candConflict w st c.1 = false) :
    planCand w st res c = some ⟨c.1, c.2, (w.target c.1).isSome, false⟩ := by
  simp only [planCand, hc, Bool.false_eq_true, if_false]

theorem planOps_append_some (w : World) (st : StateMap) (res : Resolver)
    (xs ys : List (Path × Content)) (ops : List PendingOp)
    (h : planOps w st res (xs ++ ys) = some ops) :
    ∃ ops1 ops2, planOps w st res xs = some ops1 ∧
      planOps w st res ys = some ops2 ∧ ops = ops1 ++ ops2 := by
  induction xs generalizing ops with
  | nil => exact ⟨[], ops, rfl, h, rfl⟩
  | cons c xs ih =>
      rw [List.cons_append, planOps_cons] at h
      cases hpc : planCand w st res c <;> simp only [hpc] at h
      · cases h
      · rename_i op
        cases hrec : planOps w st res (xs ++ ys) <;> simp only [hrec] at h
        · cases h
        · rename_i val
          obtain ⟨ops1, ops2, hx, hy, rfl⟩ := ih val hrec
          rw [Option.map_some'] at h
          injection h with h2
          refine ⟨op :: ops1, ops2, ?_, hy, by rw [List.cons_append]; exact h2.symm⟩
          rw [planOps_cons, hpc, hx]
          rfl

theorem planOps_append_abort (w : World) (st : StateMap) (res : Resolver)
    (xs : List (Path × Content)) (c : Path × Content) (ys : List (Path × Content))
    (ops1 : List PendingOp) (hx : planOps w st res xs = some ops1)
    (hc : planCand w st res c = none) :
    planOps w st res (xs ++ c :: ys) = none := by
  induction xs generalizing ops1 with
  | nil => rw [List.nil_append, planOps_cons, hc]
  | cons a xs ih =>
      rw [planOps_cons] at hx
      cases hpa : planCand w st res a <;> simp only [hpa] at hx
      · cases hx
      · cases hxs : planOps w st res xs <;> simp only [hxs] at hx
        · cases hx
        · rw [List.cons_append, planOps_cons]
          simp only [hpa, ih _ hxs, Option.map_none']

theorem planOps_rels (w : World) (st : StateMap) (res : Resolver) :
    ∀ (cands : List (Path × Content)) (ops : List PendingOp),
      planOps w st res cands = some ops →
      ops.map (fun op => op.relative_path) = cands.map Prod.fst := by
  intro cands
  induction cands with
  | nil =>
      intro ops h
      injection h with h1
      subst h1
      rfl
  | cons c rest ih =>
      intro ops h
      rw [planOps_cons] at h
      cases hpc : planCand w st res c <;> simp only [hpc] at h
      · cases h
      · cases hrest : planOps w st res rest <;> simp only [hrest] at h
        · cases h
        · rw [Option.map_some'] at h
          injection h with h2
          subst h2
          rw [List.map_cons, List.map_cons, ih _ hrest,
            planCand_rel w st res c _ hpc]

theorem promptedPaths_conflict (w : World) (st : StateMap) (res : Resolver) :
    ∀ (cands : List (Path × Content)) (rel : Path),
      rel ∈ promptedPaths w st res cands → candConflict w st rel = true := by
  intro cands
  induction cands with
  | nil => intro rel h; cases h
  | cons c rest ih =>
      intro rel h
      unfold promptedPaths at h
      by_cases hc : candConflict w st c.1 = true
      · rw [if_pos hc] at h
        rcases List.mem_cons.mp h with heq | h'
        · subst heq
          exact hc
        · cases hres : res c.1 <;> rw [hres] at h'
          · cases h'
          · exact ih rel h'
          · exact ih rel h'
      · rw [if_neg hc] at h
        exact ih rel h

theorem candConflict_nil (w : World) (rel : Path) :
    candConflict w [] rel = false := by
  cases h : w.target rel <;>
    simp [candConflict, check_conflicts, h]

theorem planOps_nil_state (w : World) (res : Resolver) :
    ∀ cands : List (Path × Content), planOps w [] res cands =
      some (cands.map (fun c => ⟨c.1, c.2, (w.target c.1).isSome, false⟩)) := by
  intro cands
  induction cands with
  | nil => rfl
  | cons c rest ih =>
      rw [planOps_cons, planCand_no_conflict w [] res c (candConflict_nil w c.1), ih]
      rfl

theorem promptedPaths_nil_state (w : World) (res : Resolver) :
    ∀ cands : List (Path × Content), promptedPaths w [] res cands = [] := by
  intro cands
  induction cands with
  | nil => rfl
  | cons c rest ih =>
      unfold promptedPaths
      rw [if_neg ?_, ih]
      rw [candConflict_nil]
      simp

/-! ### Execution-pass lemmas -/

theorem execOps_nil (st0 : StateMap) (fa : Option Nat) (i : Nat) (es : ExecSt) :
    execOps st0 fa [] i es = .ok es := rfl

theorem execOps_cons_eq (st0 : StateMap) (fa : Option Nat) (op : PendingOp)
    (rest : List PendingOp) (i : Nat) (es : ExecSt) :
    execOps st0 fa (op :: rest) i es =
      match backupStep st0 op es with
      | none => .failed es
      | some (orig, bak, dirs) =>
          if fa = some i then .failed { es with backup := bak, backupDirs := dirs }
          else execOps st0 fa rest (i + 1) (applyOp op orig bak dirs es) := rfl

theorem execOps_cons_ok (st0 : StateMap) (fa : Option Nat) (op : PendingOp)
    (rest : List PendingOp) (i : Nat) (es es' : ExecSt)
    (h : execOps st0 fa (op :: rest) i es = .ok es') :
    ∃ orig bak dirs, backupStep st0 op es = some (orig, bak, dirs) ∧
      ¬fa = some i ∧
      execOps st0 fa rest (i + 1) (applyOp op orig bak dirs es) = .ok es' := by
  rw [execOps_cons_eq] at h
  cases hbs : backupStep st0 op es <;> simp only [hbs] at h
  · cases h
  · rename_i v
    obtain ⟨orig, bak, dirs⟩ := v
    by_cases hfa : fa = some i
    · rw [if_pos hfa] at h
      cases h
    · rw [if_neg hfa] at h
      exact ⟨orig, bak, dirs, rfl, hfa, h⟩

theorem freshBackup_needs (st0 : StateMap) (op : PendingOp)
    (h : freshBackup st0 op = true) : op.needs_backup = true := by
  unfold freshBackup at h
  exact (Bool.and_eq_true _ _ |>.mp h).1

theorem freshBackup_false_spec (st0 : StateMap) (op : PendingOp)
    (hn : op.needs_backup = true) (h : freshBackup st0 op = false) :
    ∃ e, lookupState st0 op.relative_path = some e ∧ e.has_backup = true ∧
      op.force_rebackup = false := by
  unfold freshBackup at h
  rw [hn, Bool.true_and] at h
  cases hl : lookupState st0 op.relative_path <;> rw [hl] at h
  · cases h
  · rename_i e
    rw [Bool.or_eq_false_iff, Bool.not_eq_false'] at h
    exact ⟨e, rfl, h.1, h.2⟩

theorem backupStep_spec (st0 : StateMap) (op : PendingOp) (es : ExecSt)
    (orig : Option Checksum) (bak : FileMap) (dirs : List Path)
    (h : backupStep st0 op es = some (orig, bak, dirs)) :
    (freshBackup st0 op = true →
       ∃ tc, es.target op.relative_path = some tc ∧
         orig = some (computeChecksum tc) ∧
         bak = setFM es.backup op.relative_path tc ∧
         dirs = addParents op.relative_path es.backupDirs) ∧
    (freshBackup st0 op = false →
       bak = es.backup ∧ dirs = es.backupDirs ∧
       orig = (if op.needs_backup then
                 (lookupState st0 op.relative_path).bind
                   (fun e => e.original_checksum)
               else none)) := by
  unfold backupStep at h
  by_cases hf : freshBackup st0 op = true
  · rw [if_pos hf] at h
    refine ⟨fun _ => ?_, fun hff => absurd hf (by rw [hff]; simp)⟩
    cases ht : es.target op.relative_path <;> rw [ht] at h
    · cases h
    · rename_i tc
      rw [Option.map_some'] at h
      injection h with h1
      injection h1 with ha h2
      injection h2 with hb hc
      exact ⟨tc, rfl, ha.symm, hb.symm, hc.symm⟩
  · rw [if_neg hf] at h
    rw [Bool.not_eq_true] at hf
    refine ⟨fun hft => absurd hft (by rw [hf]; simp), fun _ => ?_⟩
    by_cases hn : op.needs_backup = true
    · rw [if_pos hn] at h
      injection h with h1
      injection h1 with ha h2
      injection h2 with hb hc
      rw [if_pos hn]
      exact ⟨hb.symm, hc.symm, ha.symm⟩
    · rw [if_neg hn] at h
      injection h with h1
      injection h1 with ha h2
      injection h2 with hb hc
      rw [if_neg hn]
      exact ⟨hb.symm, hc.symm, ha.symm⟩

theorem backupStep_frame (st0 : StateMap) (op : PendingOp) (es : ExecSt)
    (orig : Option Checksum) (bak : FileMap) (dirs : List Path)
    (h : backupStep st0 op es = some (orig, bak, dirs)) (p : Path)
    (hp : ¬p = op.relative_path) : lookupFM bak p = lookupFM es.backup p := by
  have hspec := backupStep_spec st0 op es orig bak dirs h
  by_cases hf : freshBackup st0 op = true
  · obtain ⟨tc, _, _, hbak, _⟩ := hspec.1 hf
    rw [hbak, lookupFM_setFM, if_neg hp]
  · rw [Bool.not_eq_true] at hf
    rw [(hspec.2 hf).1]

theorem execOps_frame (st0 : StateMap) (fa : Option Nat) :
    ∀ (ops : List PendingOp) (i : Nat) (es es' : ExecSt),
      execOps st0 fa ops i es = .ok es' →
      ∀ p, p ∉ ops.map (fun op => op.relative_path) →
        es'.target p = es.target p ∧
        lookupFM es'.backup p = lookupFM es.backup p ∧
        lookupState es'.new_state p = lookupState es.new_state p := by
  intro ops
  induction ops with
  | nil =>
      intro i es es' h p _
      rw [execOps_nil] at h
      injection h with h1
      subst h1
      exact ⟨rfl, rfl, rfl⟩
  | cons op rest ih =>
      intro i es es' h p hp
      obtain ⟨orig, bak, dirs, hbs, hfa, hrec⟩ :=
        execOps_cons_ok st0 fa op rest i es es' h
      rw [List.map_cons, List.mem_cons] at hp
      push_neg at hp
      obtain ⟨hp1, hp2⟩ := hp
      obtain ⟨ht, hb, hs⟩ := ih (i + 1) _ es' hrec p hp2
      refine ⟨?_, ?_, ?_⟩
      · rw [ht]
        show fset es.target op.relative_path (some op.patch_content) p = es.target p
        rw [fset_apply, if_neg hp1]
      · rw [hb]
        show lookupFM bak p = lookupFM es.backup p
        exact backupStep_frame st0 op es orig bak dirs hbs p hp1
      · rw [hs]
        show lookupState (upsert es.new_state op.relative_path _) p =
          lookupState es.new_state p
        rw [lookupState_upsert, if_neg hp1]

theorem execOps_append_ok (st0 : StateMap) (fa : Option Nat) :
    ∀ (xs ys : List PendingOp) (i : Nat) (es es' : ExecSt),
      execOps st0 fa (xs ++ ys) i es = .ok es' →
      ∃ em, execOps st0 fa xs i es = .ok em ∧
        execOps st0 fa ys (i + xs.length) em = .ok es' := by
  intro xs
  induction xs with
  | nil =>
      intro ys i es es' h
      exact ⟨es, rfl, by simpa using h⟩
  | cons op xs ih =>
      intro ys i es es' h
      rw [List.cons_append] at h
      obtain ⟨orig, bak, dirs, hbs, hfa, hrec⟩ :=
        execOps_cons_ok st0 fa op (xs ++ ys) i es es' h
      obtain ⟨em, h1, h2⟩ := ih ys (i + 1) _ es' hrec
      refine ⟨em, ?_, ?_⟩
      · rw [execOps_cons_eq]
        simp only [hbs]
        rw [if_neg hfa]
        exact h1
      · rw [show i + (op :: xs).length = (i + 1) + xs.length from by
          rw [List.length_cons]; omega]
        exact h2

theorem execOps_patched (st0 : StateMap) (fa : Option Nat) :
    ∀ (ops : List PendingOp) (i : Nat) (es es' : ExecSt),
      execOps st0 fa ops i es = .ok es' →
      es'.patched = es.patched ++ ops.map (fun op => op.relative_path) := by
  intro ops
  induction ops with
  | nil =>
      intro i es es' h
      rw [execOps_nil] at h
      injection h with h1
      subst h1
      simp
  | cons op rest ih =>
      intro i es es' h
      obtain ⟨orig, bak, dirs, hbs, hfa, hrec⟩ :=
        execOps_cons_ok st0 fa op rest i es es' h
      rw [ih (i + 1) _ es' hrec]
      show (es.patched ++ [op.relative_path]) ++ _ = _
      rw [List.map_cons, List.append_assoc]
      rfl

theorem execOps_nodup (st0 : StateMap) (fa : Option Nat) :
    ∀ (ops : List PendingOp) (i : Nat) (es es' : ExecSt),
      execOps st0 fa ops i es = .ok es' →
      nodupKeys es.new_state → nodupKeys es'.new_state := by
  intro ops
  induction ops with
  | nil =>
      intro i es es' h hnd
      rw [execOps_nil] at h
      injection h with h1
      subst h1
      exact hnd
  | cons op rest ih =>
      intro i es es' h hnd
      obtain ⟨orig, bak, dirs, hbs, hfa, hrec⟩ :=
        execOps_cons_ok st0 fa op rest i es es' h
      exact ih (i + 1) _ es' hrec (nodupKeys_upsert _ _ _ hnd)

theorem execOps_ok_of (st0 : StateMap) :
    ∀ (ops : List PendingOp) (i : Nat) (es : ExecSt),
      (∀ op ∈ ops, op.needs_backup = true →
        (es.target op.relative_path).isSome = true) →
      ∃ es', execOps st0 none ops i es = .ok es' := by
  intro ops
  induction ops with
  | nil => intro i es _; exact ⟨es, rfl⟩
  | cons op rest ih =>
      intro i es hnb
      have hstep : ∃ orig bak dirs,
          backupStep st0 op es = some (orig, bak, dirs) := by
        unfold backupStep
        by_cases hf : freshBackup st0 op = true
        · rw [if_pos hf]
          have hs := hnb op (List.mem_cons_self _ _) (freshBackup_needs st0 op hf)
          cases ht : es.target op.relative_path
          · rw [ht] at hs
            simp at hs
          · exact ⟨_, _, _, rfl⟩
        · rw [if_neg hf]
          by_cases hn : op.needs_backup = true
          · rw [if_pos hn]
            exact ⟨_, _, _, rfl⟩
          · rw [if_neg hn]
            exact ⟨_, _, _, rfl⟩
      obtain ⟨orig, bak, dirs, hbs⟩ := hstep
      have hnb' : ∀ op' ∈ rest, op'.needs_backup = true →
          ((applyOp op orig bak dirs es).target op'.relative_path).isSome = true := by
        intro op' hmem hn
        show (fset es.target op.relative_path (some op.patch_content)
          op'.relative_path).isSome = true
        rw [fset_apply]
        by_cases heq : op'.relative_path = op.relative_path
        · rw [if_pos heq]
          rfl
        · rw [if_neg heq]
          exact hnb op' (List.mem_cons_of_mem _ hmem) hn
      obtain ⟨es', hes'⟩ := ih (i + 1) (applyOp op orig bak dirs es) hnb'
      refine ⟨es', ?_⟩
      rw [execOps_cons_eq]
      simp only [hbs]
      rw [if_neg (by simp)]
      exact hes'

theorem execOps_at (st0 : StateMap) (fa : Option Nat) (ops1 : List PendingOp)
    (op : PendingOp) (ops2 : List PendingOp) (i : Nat) (es es' : ExecSt)
    (h : execOps st0 fa (ops1 ++ op :: ops2) i es = .ok es')
    (hno1 : op.relative_path ∉ ops1.map (fun o => o.relative_path))
    (hno2 : op.relative_path ∉ ops2.map (fun o => o.relative_path)) :
    es'.target op.relative_path = some op.patch_content ∧
    (freshBackup st0 op = true →
       ∃ tc, es.target op.relative_path = some tc ∧
         lookupFM es'.backup op.relative_path = some tc ∧
         lookupState es'.new_state op.relative_path =
           some ⟨op.relative_path, some (computeChecksum tc),
                 computeChecksum op.patch_content, op.needs_backup⟩) ∧
    (freshBackup st0 op = false →
       lookupFM es'.backup op.relative_path = lookupFM es.backup op.relative_path ∧
       lookupState es'.new_state op.relative_path =
         some ⟨op.relative_path,
               (if op.needs_backup then
                  (lookupState st0 op.relative_path).bind
                    (fun e => e.original_checksum)
                else none),
               computeChecksum op.patch_content, op.needs_backup⟩) := by
  obtain ⟨em, h1, h2⟩ :=
    execOps_append_ok st0 fa ops1 (op :: ops2) i es es' h
  obtain ⟨orig, bak, dirs, hbs, hfa, hrec⟩ :=
    execOps_cons_ok st0 fa op ops2 _ em es' h2
  have hframe1 := execOps_frame st0 fa ops1 i es em h1 op.relative_path hno1
  have hframe2 := execOps_frame st0 fa ops2 _ _ es' hrec op.relative_path hno2
  have hspec := backupStep_spec st0 op em orig bak dirs hbs
  have htgt : es'.target op.relative_path = some op.patch_content := by
    rw [hframe2.1]
    show fset em.target op.relative_path (some op.patch_content)
      op.relative_path = some op.patch_content
    rw [fset_apply, if_pos rfl]
  have hstate : lookupState es'.new_state op.relative_path =
      some ⟨op.relative_path, orig, computeChecksum op.patch_content,
        op.needs_backup⟩ := by
    rw [hframe2.2.2]
    show lookupState (upsert em.new_state op.relative_path _)
      op.relative_path = _
    rw [lookupState_upsert, if_pos rfl]
  have hbak : lookupFM es'.backup op.relative_path =
      lookupFM bak op.relative_path := by
    rw [hframe2.2.1]
    rfl
  refine ⟨htgt, fun hf => ?_, fun hf => ?_⟩
  · obtain ⟨tc, htc, horig, hbak', _⟩ := hspec.1 hf
    refine ⟨tc, by rw [← hframe1.1]; exact htc, ?_, ?_⟩
    · rw [hbak, hbak', lookupFM_setFM, if_pos rfl]
    · rw [hstate, horig]
  · obtain ⟨hbak', _, horig⟩ := hspec.2 hf
    refine ⟨?_, ?_⟩
    · rw [hbak, hbak', hframe1.2.1]
    · rw [hstate, horig]

theorem StateInv_setFM (st : StateMap) (bak : FileMap) (p : Path) (c : Content)
    (h : StateInv st bak) : StateInv st (setFM bak p c) := by
  intro q e hq
  obtain ⟨h1, h2⟩ := h q e hq
  refine ⟨h1, fun hb => ?_⟩
  rw [lookupFM_setFM]
  by_cases hqp : q = p
  · rw [if_pos hqp]
    rfl
  · rw [if_neg hqp]
    exact h2 hb

theorem StateInv_backup_of_step (st0 : StateMap) (op : PendingOp) (es : ExecSt)
    (orig : Option Checksum) (bak : FileMap) (dirs : List Path)
    (h : backupStep st0 op es = some (orig, bak, dirs)) (st : StateMap)
    (hinv : StateInv st es.backup) : StateInv st bak := by
  have hspec := backupStep_spec st0 op es orig bak dirs h
  by_cases hf : freshBackup st0 op = true
  · obtain ⟨tc, _, _, hbak, _⟩ := hspec.1 hf
    rw [hbak]
    exact StateInv_setFM st es.backup op.relative_path tc hinv
  · rw [Bool.not_eq_true] at hf
    rw [(hspec.2 hf).1]
    exact hinv

theorem StateInv_upsert_entry (st0 : StateMap) (op : PendingOp) (es : ExecSt)
    (orig : Option Checksum) (bak : FileMap) (dirs : List Path)
    (h : backupStep st0 op es = some (orig, bak, dirs))
    (hinv0 : StateInv st0 es.backup) (st : StateMap)
    (hinv : StateInv st bak) :
    StateInv (upsert st op.relative_path
      ⟨op.relative_path, orig, computeChecksum op.patch_content,
       op.needs_backup⟩) bak := by
  intro q e hq
  rw [lookupState_upsert] at hq
  by_cases hqp : q = op.relative_path
  · rw [if_pos hqp] at hq
    injection hq with hq1
    subst hq1
    have hspec := backupStep_spec st0 op es orig bak dirs h
    by_cases hf : freshBackup st0 op = true
    · obtain ⟨tc, _, horig, hbak, _⟩ := hspec.1 hf
      constructor
      · intro hnone
        rw [horig] at hnone
        cases hnone
      · intro _
        rw [hbak, hqp, lookupFM_setFM, if_pos rfl]
        rfl
    · rw [Bool.not_eq_true] at hf
      obtain ⟨hbak, _, horig⟩ := hspec.2 hf
      by_cases hn : op.needs_backup = true
      · obtain ⟨e0, hl0, hb0, _⟩ := freshBackup_false_spec st0 op hn hf
        have he0 := hinv0 op.relative_path e0 hl0
        constructor
        · intro hnone
          rw [horig, if_pos hn, hl0] at hnone
          have hnone' : e0.original_checksum = none := hnone
          rw [he0.1 hnone'] at hb0
          cases hb0
        · intro _
          rw [hqp, hbak]
          exact he0.2 hb0
      · constructor
        · intro _
          show op.needs_backup = false
          rw [Bool.not_eq_true] at hn
          exact hn
        · intro hb
          exact absurd hb hn
  · rw [if_neg hqp] at hq
    exact hinv q e hq

theorem execOps_inv (st0 : StateMap) (fa : Option Nat) :
    ∀ (ops : List PendingOp) (i : Nat) (es : ExecSt),
      StateInv st0 es.backup → StateInv es.new_state es.backup →
      (∀ es', execOps st0 fa ops i es = .ok es' →
         StateInv st0 es'.backup ∧ StateInv es'.new_state es'.backup) ∧
      (∀ es', execOps st0 fa ops i es = .failed es' →
         StateInv st0 es'.backup) := by
  intro ops
  induction ops with
  | nil =>
      intro i es hinv0 hinv
      constructor
      · intro es' h
        rw [execOps_nil] at h
        injection h with h1
        subst h1
        exact ⟨hinv0, hinv⟩
      · intro es' h
        rw [execOps_nil] at h
        cases h
  | cons op rest ih =>
      intro i es hinv0 hinv
      constructor
      · intro es' h
        obtain ⟨orig, bak, dirs, hbs, hfa, hrec⟩ :=
          execOps_cons_ok st0 fa op rest i es es' h
        have hinv0' : StateInv st0 bak :=
          StateInv_backup_of_step st0 op es orig bak dirs hbs st0 hinv0
        have hinv' : StateInv (upsert es.new_state op.relative_path
            ⟨op.relative_path, orig, computeChecksum op.patch_content,
             op.needs_backup⟩) bak :=
          StateInv_upsert_entry st0 op es orig bak dirs hbs hinv0
            es.new_state
            (StateInv_backup_of_step st0 op es orig bak dirs hbs
              es.new_state hinv)
        exact (ih (i + 1) (applyOp op orig bak dirs es) hinv0' hinv').1 es' hrec
      · intro es' h
        rw [execOps_cons_eq] at h
        cases hbs : backupStep st0 op es <;> simp only [hbs] at h
        · injection h with h1
          subst h1
          exact hinv0
        · rename_i v
          obtain ⟨orig, bak, dirs⟩ := v
          by_cases hfa : fa = some i
          · rw [if_pos hfa] at h
            injection h with h1
            subst h1
            exact StateInv_backup_of_step st0 op es orig bak dirs hbs st0 hinv0
          · rw [if_neg hfa] at h
            have hinv0' : StateInv st0 bak :=
              StateInv_backup_of_step st0 op es orig bak dirs hbs st0 hinv0
            have hinv' :=
              StateInv_upsert_entry st0 op es orig bak dirs hbs hinv0
                es.new_state
                (StateInv_backup_of_step st0 op es orig bak dirs hbs
                  es.new_state hinv)
            exact (ih (i + 1) (applyOp op orig bak dirs es) hinv0' hinv').2 es' h

theorem rollbackFiles_backup (patched : List Path) :
    ∀ (tgt : Path → Option Content) (bak : FileMap),
      (rollbackFiles patched tgt bak).2 = bak := by
  induction patched with
  | nil => intro tgt bak; rfl
  | cons rel rest ih =>
      intro tgt bak
      show (rollbackFiles rest (restore_file tgt bak rel false).1
        (restore_file tgt bak rel false).2).2 = bak
      rw [ih]
      unfold restore_file
      cases lookupFM bak rel <;> rfl

/-! ### Revert-loop lemmas -/

theorem revertFold_frame (st : StateMap) :
    ∀ (t0 : Path → Option Content) (b0 : FileMap) (p : Path), p ∉ keysOf st →
      (st.foldl (fun tb pe => restore_file tb.1 tb.2 pe.1 true) (t0, b0)).1 p = t0 p ∧
      lookupFM (st.foldl (fun tb pe => restore_file tb.1 tb.2 pe.1 true) (t0, b0)).2 p
        = lookupFM b0 p := by
  induction st with
  | nil =>
      intro t0 b0 p _
      exact ⟨rfl, rfl⟩
  | cons pe rest ih =>
      intro t0 b0 p hp
      obtain ⟨q, x⟩ := pe
      rw [keysOf_cons, List.mem_cons] at hp
      push_neg at hp
      rw [List.foldl_cons]
      have hstep : (restore_file t0 b0 q true).1 p = t0 p ∧
          lookupFM (restore_file t0 b0 q true).2 p = lookupFM b0 p := by
        unfold restore_file
        cases hb : lookupFM b0 q
        · refine ⟨?_, rfl⟩
          show fset t0 q none p = t0 p
          rw [fset_apply, if_neg hp.1]
        · constructor
          · show fset t0 q (some _) p = t0 p
            rw [fset_apply, if_neg hp.1]
          · show lookupFM (eraseFM b0 q) p = lookupFM b0 p
            rw [lookupFM_eraseFM, if_neg hp.1]
      obtain ⟨h1, h2⟩ :=
        ih (restore_file t0 b0 q true).1 (restore_file t0 b0 q true).2 p hp.2
      exact ⟨h1.trans hstep.1, h2.trans hstep.2⟩

theorem revertFold_at (st : StateMap) :
    ∀ (t0 : Path → Option Content) (b0 : FileMap) (p : Path) (e : PatchedFile),
      nodupKeys st → (p, e) ∈ st →
      (st.foldl (fun tb pe => restore_file tb.1 tb.2 pe.1 true) (t0, b0)).1 p
        = lookupFM b0 p ∧
      lookupFM (st.foldl (fun tb pe => restore_file tb.1 tb.2 pe.1 true) (t0, b0)).2 p
        = none := by
  induction st with
  | nil =>
      intro t0 b0 p e _ h
      cases h
  | cons pe rest ih =>
      intro t0 b0 p e hnd hmem
      obtain ⟨q, x⟩ := pe
      rw [nodupKeys_cons_iff] at hnd
      rw [List.foldl_cons]
      rcases List.mem_cons.mp hmem with heq | hmem'
      · injection heq with hq hx
        subst hq
        have hpnotin : p ∉ keysOf rest := hnd.1
        obtain ⟨h1, h2⟩ := revertFold_frame rest
          (restore_file t0 b0 p true).1 (restore_file t0 b0 p true).2 p hpnotin
        constructor
        · rw [h1]
          unfold restore_file
          cases hb : lookupFM b0 p
          · show fset t0 p none p = none
            rw [fset_apply, if_pos rfl]
          · show fset t0 p (some _) p = some _
            rw [fset_apply, if_pos rfl]
        · rw [h2]
          unfold restore_file
          cases hb : lookupFM b0 p
          · exact hb
          · show lookupFM (eraseFM b0 p) p = none
            rw [lookupFM_eraseFM, if_pos rfl]
      · have hkey : p ∈ keysOf rest := List.mem_map_of_mem Prod.fst hmem'
        have hpq : ¬p = q := fun h => hnd.1 (h ▸ hkey)
        have hX2 : lookupFM (restore_file t0 b0 q true).2 p = lookupFM b0 p := by
          unfold restore_file
          cases hb : lookupFM b0 q
          · rfl
          · show lookupFM (eraseFM b0 q) p = _
            rw [lookupFM_eraseFM, if_neg hpq]
        obtain ⟨h1, h2⟩ := ih (restore_file t0 b0 q true).1
          (restore_file t0 b0 q true).2 p e hnd.2 hmem'
        exact ⟨h1.trans hX2, h2⟩

/-! ### Unfolding lemmas for `applyModel` -/

theorem applyModel_target_missing (w : World)
    (patches : Option (List (Path × Content))) (res : Resolver) (fa : Option Nat)
    (htr : w.targetRootExists = false) :
    applyModel w patches res fa = ⟨w, .targetMissing, []⟩ := by
  simp [applyModel, htr]

theorem applyModel_no_source (w : World) (res : Resolver) (fa : Option Nat)
    (htr : w.targetRootExists = true) :
    applyModel w none res fa = ⟨w, .patchSourceMissing, []⟩ := by
  simp [applyModel, htr]

theorem applyModel_empty_source (w : World) (cands : List (Path × Content))
    (res : Resolver) (fa : Option Nat) (htr : w.targetRootExists = true)
    (hne : cands.isEmpty = true) :
    applyModel w (some cands) res fa = ⟨w, .noPatches, []⟩ := by
  simp [applyModel, htr, hne]

theorem applyModel_plan_none (w : World) (cands : List (Path × Content))
    (res : Resolver) (fa : Option Nat)
    (htr : w.targetRootExists = true) (hne : cands.isEmpty = false)
    (hplan : planOps w (loadState w) res cands = none) :
    applyModel w (some cands) res fa =
      ⟨w, .aborted, promptedPaths w (loadState w) res cands⟩ := by
  simp [applyModel, htr, hne, hplan]

theorem applyModel_run (w : World) (cands : List (Path × Content))
    (res : Resolver) (fa : Option Nat) (ops : List PendingOp)
    (htr : w.targetRootExists = true) (hne : cands.isEmpty = false)
    (hplan : planOps w (loadState w) res cands = some ops) :
    applyModel w (some cands) res fa =
      match execOps (loadState w) fa ops 0
        ⟨w.target, w.backup, w.backupDirs, loadState w, []⟩ with
      | .ok es =>
          ⟨{ w with
              target := es.target
              backup := es.backup
              backupDirs := es.backupDirs
              stateFile := some es.new_state },
           .success es.patched.length, promptedPaths w (loadState w) res cands⟩
      | .failed es =>
          ⟨{ w with
              target := (rollbackFiles es.patched es.target es.backup).1
              backup := (rollbackFiles es.patched es.target es.backup).2
              backupDirs := es.backupDirs
              stateFile := some (loadState w) },
           .patchingFailed, promptedPaths w (loadState w) res cands⟩ := by
  simp [applyModel, htr, hne, hplan]

/-! ### Further small helper lemmas for the claims -/

theorem loadState_some (w : World) (st : StateMap) (h : w.stateFile = some st) :
    loadState w = st := by
  rw [loadState, h]
  rfl

theorem isEmpty_false_of_ne_nil {α : Type} (l : List α) (h : l ≠ []) :
    l.isEmpty = false := by
  cases l with
  | nil => exact absurd rfl h
  | cons a l => rfl

theorem candConflict_target_none (w : World) (st : StateMap) (rel : Path)
    (h : w.target rel = none) : candConflict w st rel = false := by
  simp [candConflict, h]

theorem candConflict_no_modified (w : World) (st : StateMap) (rel : Path)
    (e : PatchedFile) (c : Content) (hl : lookupState st rel = some e)
    (ht : w.target rel = some c) (hc : computeChecksum c = e.patched_checksum) :
    candConflict w st rel = false := by
  simp [candConflict, check_conflicts, ht, hl, hc]

theorem lookupFM_split (m : FileMap) (p : Path) (c : Content)
    (h : lookupFM m p = some c) :
    ∃ pre post, m = pre ++ (p, c) :: post ∧ p ∉ keysOf pre := by
  induction m with
  | nil => cases h
  | cons hd rest ih =>
      obtain ⟨a, x⟩ := hd
      rw [lookupFM_cons] at h
      by_cases hpa : p = a
      · rw [if_pos hpa] at h
        injection h with h1
        subst hpa
        subst h1
        exact ⟨[], rest, rfl, by rw [keysOf_nil]; exact List.not_mem_nil p⟩
      · rw [if_neg hpa] at h
        obtain ⟨pre, post, heq, hnot⟩ := ih h
        refine ⟨(a, x) :: pre, post, by rw [heq, List.cons_append], ?_⟩
        rw [keysOf_cons, List.mem_cons]
        push_neg
        exact ⟨hpa, hnot⟩

theorem keysOf_append {α : Type} (l1 l2 : List (Path × α)) :
    keysOf (l1 ++ l2) = keysOf l1 ++ keysOf l2 := List.map_append _ _ _

theorem nodupKeys_split {α : Type} (pre : List (Path × α)) (p : Path) (x : α)
    (post : List (Path × α)) (h : nodupKeys (pre ++ (p, x) :: post)) :
    p ∉ keysOf post := by
  have h2 : (keysOf pre ++ p :: keysOf post).Nodup := by
    rw [← keysOf_cons p x post, ← keysOf_append]
    exact h
  have h3 : (p :: keysOf post).Nodup := h2.of_append_right
  exact (List.nodup_cons.mp h3).1

theorem lookupFM_isSome_of_mem_keys (m : FileMap) (p : Path)
    (h : p ∈ keysOf m) : ∃ c, lookupFM m p = some c := by
  cases hl : lookupFM m p
  · exact absurd ((lookupFM_eq_none_iff m p).mp hl) (by intro h2; exact h2 h)
  · exact ⟨_, rfl⟩

theorem freshBackup_of_untracked (st0 : StateMap) (op : PendingOp)
    (hl : lookupState st0 op.relative_path = none) :
    freshBackup st0 op = op.needs_backup := by
  unfold freshBackup
  rw [hl, Bool.and_true]

theorem freshBackup_of_kept (st0 : StateMap) (op : PendingOp) (e : PatchedFile)
    (hl : lookupState st0 op.relative_path = some e) (hb : e.has_backup = true)
    (hf : op.force_rebackup = false) : freshBackup st0 op = false := by
  unfold freshBackup
  rw [hl]
  simp [hb, hf]

/-! ### Concrete scenario worlds used by counterexamples and witnesses -/

/-- A resolver that always aborts (it is never consulted in the scenarios
that use it, except where stated). -/
def abortResolver : Resolver := fun _ => .abort

/-- Round-trip scenario (claim C1): a target with one pre-existing file. -/
def rtW0 : World where
  targetRootExists := true
  target := fun p => if p = ["a"] then some "orig" else none
  backup := []
  backupDirs := []
  stateFile := none

/-- The world after a first successful apply of `a ↦ new` to `rtW0`. -/
def rtW1 : World := (applyModel rtW0 (some [(["a"], "new")]) abortResolver none).world

/-- The second apply of the same patch source to `rtW1`. -/
def rtR2 : ApplyResult := applyModel rtW1 (some [(["a"], "new")]) abortResolver none

/-- Baseline-stability scenario (claim C3): an initially empty target. -/
def bsW0 : World where
  targetRootExists := true
  target := fun _ => none
  backup := []
  backupDirs := []
  stateFile := none

/-- First apply: creates `a` with content `P1`. -/
def bsR1 : ApplyResult := applyModel bsW0 (some [(["a"], "P1")]) abortResolver none

/-- Second apply with changed patch content `P2`. -/
def bsR2 : ApplyResult := applyModel bsR1.world (some [(["a"], "P2")]) abortResolver none

/-- Rollback scenario (claim C2): two pre-existing files. -/
def rbW0 : World where
  targetRootExists := true
  target := fun p => if p = ["a"] then some "A0" else if p = ["b"] then some "B0" else none
  backup := []
  backupDirs := []
  stateFile := none

/-- First apply patches only `a`; it succeeds and backs `A0` up. -/
def rbR1 : ApplyResult := applyModel rbW0 (some [(["a"], "A1")]) abortResolver none

/-- Second apply of two files, with the copy of the second file (`b`, index 1)
raising an I/O error after `a` has already been re-patched. -/
def rbR2 : ApplyResult :=
  applyModel rbR1.world (some [(["a"], "A2"), (["b"], "B2")]) abortResolver (some 1)

/-! ### The claims -/

/-- **C7.**  For every tracked entry, `status` classifies it as Missing iff
the target file is absent, Clean iff the target file is present and its
fingerprint equals the recorded `patched_checksum`, and Modified otherwise. -/
theorem status_classification (w : World) (rel : Path) (e : PatchedFile) :
    (statusOf w rel e = .missing ↔ w.target rel = none) ∧
    (statusOf w rel e = .clean ↔ ∃ c, w.target rel = some c ∧
      computeChecksum c = e.patched_checksum) ∧
    (statusOf w rel e = .modified ↔ ∃ c, w.target rel = some c ∧
      computeChecksum c ≠ e.patched_checksum) := by
  cases ht : w.target rel
  · simp [statusOf, ht]
  · rename_i c
    by_cases hc : computeChecksum c = e.patched_checksum <;>
      simp [statusOf, ht, hc]

/-- **C8.** `apply` fails with `TargetMissing` when the target root does not
exist, and with `PatchSourceMissing` when the patch source root does not
exist; an existing-but-empty patch source is a no-op success: exit code 0,
no target file and no state changed. -/
theorem apply_preconditions (w : World) (res : Resolver) (fa : Option Nat)
    (patches : Option (List (Path × Content))) :
    (w.targetRootExists = false →
       applyModel w patches res fa = ⟨w, .targetMissing, []⟩ ∧
       exitCode (applyModel w patches res fa).outcome = 1) ∧
    (w.targetRootExists = true → patches = none →
       applyModel w patches res fa = ⟨w, .patchSourceMissing, []⟩ ∧
       exitCode (applyModel w patches res fa).outcome = 1) ∧
    (w.targetRootExists = true → patches = some [] →
       applyModel w patches res fa = ⟨w, .noPatches, []⟩ ∧
       exitCode (applyModel w patches res fa).outcome = 0) := by
  refine ⟨fun h => ?_, fun h hp => ?_, fun h hp => ?_⟩
  · have he := applyModel_target_missing w patches res fa h
    exact ⟨he, by rw [he]; rfl⟩
  · subst hp
    have he := applyModel_no_source w res fa h
    exact ⟨he, by rw [he]; rfl⟩
  · subst hp
    have he := applyModel_empty_source w [] res fa h rfl
    exact ⟨he, by rw [he]; rfl⟩

/-- **C4.**  If the conflict resolver returns Abort for a candidate reached
during `apply`'s planning pass, the entire apply is cancelled with zero side
effects: the world (target tree, backup tree, state) is unchanged and the
process exits with status 0. -/
theorem apply_abort_zero_side_effects (w : World) (res : Resolver)
    (fa : Option Nat) (pre post : List (Path × Content)) (c : Path × Content)
    (htr : w.targetRootExists = true)
    (hpre : ∃ ops1, planOps w (loadState w) res pre = some ops1)
    (hconf : candConflict w (loadState w) c.1 = true)
    (hres : res c.1 = .abort) :
    (applyModel w (some (pre ++ c :: post)) res fa).world = w ∧
    (applyModel w (some (pre ++ c :: post)) res fa).outcome = .aborted ∧
    exitCode (applyModel w (some (pre ++ c :: post)) res fa).outcome = 0 := by
  obtain ⟨ops1, hpre⟩ := hpre
  have hpc : planCand w (loadState w) res c = none := by
    simp [planCand, hconf, hres]
  have hplan : planOps w (loadState w) res (pre ++ c :: post) = none :=
    planOps_append_abort w (loadState w) res pre c post ops1 hpre hpc
  have hne : (pre ++ c :: post).isEmpty = false :=
    isEmpty_false_of_ne_nil _ (by simp)
  have he := applyModel_plan_none w (pre ++ c :: post) res fa htr hne hplan
  rw [he]
  exact ⟨rfl, rfl, rfl⟩

/-- **C1 counterexample.**  The round-trip claim quantifies over every target
tree and patch source on which `apply` succeeds with no conflict resolution,
but it fails when a patch state from an earlier apply already exists: here the
second apply succeeds with no resolver consultation, the file `a` pre-exists
with byte content `new`, yet the revert that follows restores `orig` (the
first-run baseline), not the pre-apply content `new`. -/
theorem apply_revert_roundtrip_cex :
    rtR2.outcome = .success 1 ∧
    rtR2.consulted = [] ∧
    rtW1.target ["a"] = some "new" ∧
    (revertModel rtR2.world).world.target ["a"] = some "orig" ∧
    ¬(some "orig" : Option Content) = some "new" := by
  refine ⟨rfl, rfl, rfl, rfl, by decide⟩

/-- **C2 (code bug).**  Evaluation of the model at the failing input: the
first apply patches `a` (success, `a` holds `A1`, backup holds `A0`); the
second apply re-patches `a`, then fails while copying `b` (operation index 1
of 2).  After the rollback the persisted state equals its pre-call value and
all backups remain, but the target file `a` holds `A0` — its first-run
baseline restored from the stale backup — not its pre-call content `A1`,
contradicting the claim (and the repository's own rollback test). -/
theorem rollback_restores_stale_baseline :
    rbR1.outcome = .success 1 ∧
    rbR1.world.target ["a"] = some "A1" ∧
    rbR2.outcome = .patchingFailed ∧
    rbR2.world.stateFile = rbR1.world.stateFile ∧
    lookupFM rbR2.world.backup ["a"] = some "A0" ∧
    lookupFM rbR2.world.backup ["b"] = some "B0" ∧
    rbR2.world.target ["a"] = some "A0" ∧
    ¬(some "A0" : Option Content) = some "A1" := by
  refine ⟨rfl, rfl, rfl, by decide, by decide, by decide, rfl, by decide⟩

/-- **C3 counterexample.**  For a file the first apply newly created
(`original_checksum = none`), a second successful apply with changed patch
content does not leave `original_checksum` at the value recorded by the first
apply: it re-records it as the fingerprint of the intermediate patched
content `P1`, and sets `has_backup := true`. -/
theorem baseline_stability_cex :
    bsR1.outcome = .success 1 ∧
    bsR2.outcome = .success 1 ∧
    bsR2.consulted = [] ∧
    lookupState (loadState bsR1.world) ["a"] =
      some ⟨["a"], none, computeChecksum "P1", false⟩ ∧
    lookupState (loadState bsR2.world) ["a"] =
      some ⟨["a"], some (computeChecksum "P1"), computeChecksum "P2", true⟩ ∧
    ¬(some (computeChecksum "P1") : Option Checksum) = none := by
  refine ⟨rfl, rfl, rfl, by decide, by decide, by decide⟩

/-- **C5.**  For every tracked entry, `revert` independently copies the
backup at `backup_root/relative_path` onto the target and deletes the backup
when that backup exists, and deletes the target file (if present) otherwise;
untracked paths are untouched; after processing all entries it deletes the
state file, reports the count of entries processed, and prunes now-empty
directories under the backup root bottom-up: every surviving backup directory
still holds a file below it, and every directory holding a file survives. -/
theorem revert_restores_and_prunes (w : World) (st : StateMap)
    (hst : w.stateFile = some st) (hne : st ≠ []) (hnd : nodupKeys st) :
    (∀ p e, (p, e) ∈ st →
       (revertModel w).world.target p = lookupFM w.backup p ∧
       lookupFM (revertModel w).world.backup p = none) ∧
    (∀ p, p ∉ keysOf st →
       (revertModel w).world.target p = w.target p ∧
       lookupFM (revertModel w).world.backup p = lookupFM w.backup p) ∧
    (revertModel w).world.stateFile = none ∧
    (revertModel w).reverted = st.length ∧
    (∀ d ∈ (revertModel w).world.backupDirs, d ∈ w.backupDirs ∧
       (d ≠ [] → ∃ fc ∈ (revertModel w).world.backup, underDir d fc.1 = true)) ∧
    (∀ d ∈ w.backupDirs,
       (∃ fc ∈ (revertModel w).world.backup, underDir d fc.1 = true) →
       d ∈ (revertModel w).world.backupDirs) := by
  have hload : loadState w = st := loadState_some w st hst
  have hisEmpty : st.isEmpty = false := isEmpty_false_of_ne_nil st hne
  have hrev : revertModel w =
      ⟨{ w with
          target := (st.foldl (fun tb pe => restore_file tb.1 tb.2 pe.1 true)
            (w.target, w.backup)).1
          backup := (st.foldl (fun tb pe => restore_file tb.1 tb.2 pe.1 true)
            (w.target, w.backup)).2
          stateFile := none
          backupDirs := pruneDirs
            (st.foldl (fun tb pe => restore_file tb.1 tb.2 pe.1 true)
              (w.target, w.backup)).2 w.backupDirs },
       st.length⟩ := by
    unfold revertModel
    rw [hload]
    simp only [hisEmpty, Bool.false_eq_true, if_false]
  rw [hrev]
  refine ⟨?_, ?_, rfl, rfl, ?_, ?_⟩
  · intro p e hmem
    exact revertFold_at st w.target w.backup p e hnd hmem
  · intro p hp
    exact revertFold_frame st w.target w.backup p hp
  · intro d hd
    refine ⟨pruneDirs_subset _ _ _ hd, fun hdne => ?_⟩
    exact pruneDirs_no_empty _ _ _ hd hdne
  · intro d hd hf
    exact pruneDirs_keep _ _ _ hd hf

/-- **C6.**  Every `TrackedFile` entry persisted to the state file satisfies
the invariant: `original_checksum = none` implies `has_backup = false`, and
`has_backup = true` implies a file exists at `backup_root/relative_path` at
the moment the state is saved.  `apply` persists state exactly when its final
world carries one (on success the new state, after a mid-run failure the
restored pre-call state), and in both cases the invariant carries over from
the pre-call state. -/
theorem state_invariant_preserved (w : World)
    (patches : Option (List (Path × Content))) (res : Resolver)
    (fa : Option Nat) (hinv : StateInv (loadState w) w.backup) :
    ∀ st', (applyModel w patches res fa).world.stateFile = some st' →
      StateInv st' (applyModel w patches res fa).world.backup := by
  intro st' hst'
  have hsame : (applyModel w patches res fa).world = w →
      (applyModel w patches res fa).world.stateFile = some st' →
      StateInv st' (applyModel w patches res fa).world.backup := by
    intro hw hst2
    rw [hw] at hst2 ⊢
    rw [← loadState_some w st' hst2]
    exact hinv
  cases htr : w.targetRootExists
  · exact hsame (by rw [applyModel_target_missing w patches res fa htr]) hst'
  · cases patches with
    | none => exact hsame (by rw [applyModel_no_source w res fa htr]) hst'
    | some cands =>
        cases hne : cands.isEmpty
        · cases hplan : planOps w (loadState w) res cands with
          | none =>
              exact hsame
                (by rw [applyModel_plan_none w cands res fa htr hne hplan]) hst'
          | some ops =>
              have hrun := applyModel_run w cands res fa ops htr hne hplan
              have hinit := execOps_inv (loadState w) fa ops 0
                ⟨w.target, w.backup, w.backupDirs, loadState w, []⟩ hinv hinv
              cases hexec : execOps (loadState w) fa ops 0
                ⟨w.target, w.backup, w.backupDirs, loadState w, []⟩ with
              | ok es =>
                  rw [hrun] at hst' ⊢
                  simp only [hexec] at hst' ⊢
                  injection hst' with hst2
                  subst hst2
                  exact (hinit.1 es hexec).2
              | failed es =>
                  rw [hrun] at hst' ⊢
                  simp only [hexec] at hst' ⊢
                  injection hst' with hst2
                  subst hst2
                  rw [rollbackFiles_backup]
                  exact hinit.2 es hexec
        · exact hsame
            (by rw [applyModel_empty_source w cands res fa htr hne]) hst'

theorem applyModel_success_inv (w : World) (cands : List (Path × Content))
    (res : Resolver) (fa : Option Nat) (n : Nat)
    (h : (applyModel w (some cands) res fa).outcome = .success n) :
    ∃ ops es,
      w.targetRootExists = true ∧ cands.isEmpty = false ∧
      planOps w (loadState w) res cands = some ops ∧
      execOps (loadState w) fa ops 0
        ⟨w.target, w.backup, w.backupDirs, loadState w, []⟩ = .ok es ∧
      (applyModel w (some cands) res fa).world =
        { w with
            target := es.target
            backup := es.backup
            backupDirs := es.backupDirs
            stateFile := some es.new_state } ∧
      (applyModel w (some cands) res fa).consulted =
        promptedPaths w (loadState w) res cands := by
  by_cases htr : w.targetRootExists = true
  · by_cases hne0 : cands.isEmpty = true
    · rw [applyModel_empty_source w cands res fa htr hne0] at h
      cases h
    · have hne : cands.isEmpty = false := by
        cases hb : cands.isEmpty
        · rfl
        · exact absurd hb hne0
      obtain hplan | ⟨ops, hplan⟩ :
          planOps w (loadState w) res cands = none ∨
          ∃ ops, planOps w (loadState w) res cands = some ops := by
        cases planOps w (loadState w) res cands with
        | none => exact Or.inl rfl
        | some ops => exact Or.inr ⟨ops, rfl⟩
      · rw [applyModel_plan_none w cands res fa htr hne hplan] at h
        cases h
      · have hrun := applyModel_run w cands res fa ops htr hne hplan
        cases hexec : execOps (loadState w) fa ops 0
          ⟨w.target, w.backup, w.backupDirs, loadState w, []⟩ with
        | ok es =>
            refine ⟨ops, es, htr, hne, hplan, hexec, ?_, ?_⟩
            · rw [hrun]
              simp only [hexec]
            · rw [hrun]
              simp only [hexec]
        | failed es =>
            rw [hrun] at h
            simp only [hexec] at h
            cases h
  · have htrf : w.targetRootExists = false := by
      cases hb : w.targetRootExists
      · rfl
      · exact absurd hb htr
    rw [applyModel_target_missing w _ res fa htrf] at h
    cases h

/-- **C10.**  For a relative path tracked in state whose target file is
absent at apply time, `apply` performs no conflict check and no resolver
prompt, copies the patch file to the target, and overwrites the state entry
with `original_checksum = none` and `has_backup = false` — discarding the
previously recorded baseline fingerprint — while any existing backup file
for that path remains on disk untouched. -/
theorem apply_absent_target_overwrites_entry (w : World)
    (cands : List (Path × Content)) (res : Resolver) (fa : Option Nat)
    (rel : Path) (e : PatchedFile) (pc : Content) (n : Nat)
    (htrk : lookupState (loadState w) rel = some e)
    (habs : w.target rel = none)
    (hcand : lookupFM cands rel = some pc)
    (hnd : nodupKeys cands)
    (hout : (applyModel w (some cands) res fa).outcome = .success n) :
    rel ∉ (applyModel w (some cands) res fa).consulted ∧
    (applyModel w (some cands) res fa).world.target rel = some pc ∧
    lookupFM (applyModel w (some cands) res fa).world.backup rel =
      lookupFM w.backup rel ∧
    ∃ st', (applyModel w (some cands) res fa).world.stateFile = some st' ∧
      lookupState st' rel = some ⟨rel, none, computeChecksum pc, false⟩ := by
  obtain ⟨ops, es, htr, hne, hplan, hexec, hworld, hcons⟩ :=
    applyModel_success_inv w cands res fa n hout
  obtain ⟨pre, post, hsplit, hpre⟩ := lookupFM_split cands rel pc hcand
  have hpost : rel ∉ keysOf post := by
    rw [hsplit] at hnd
    exact nodupKeys_split pre rel pc post hnd
  rw [hsplit] at hplan
  obtain ⟨ops1, ops2', hplan1, hplan2, hops⟩ :=
    planOps_append_some w (loadState w) res pre ((rel, pc) :: post) ops hplan
  have hcc : candConflict w (loadState w) rel = false :=
    candConflict_target_none w (loadState w) rel habs
  have hisSome : (w.target rel).isSome = false := by
    rw [habs]
    rfl
  have hpc2 : planCand w (loadState w) res (rel, pc) =
      some ⟨rel, pc, false, false⟩ := by
    have h0 := planCand_no_conflict w (loadState w) res (rel, pc) hcc
    rw [hisSome] at h0
    exact h0
  rw [planOps_cons] at hplan2
  simp only [hpc2] at hplan2
  cases hplan3 : planOps w (loadState w) res post with
  | none =>
      rw [hplan3, Option.map_none'] at hplan2
      cases hplan2
  | some ops3 =>
      rw [hplan3, Option.map_some'] at hplan2
      injection hplan2 with hops2
      subst hops2
      rw [hops] at hexec
      have hrels1 := planOps_rels w (loadState w) res pre ops1 hplan1
      have hrels3 := planOps_rels w (loadState w) res post ops3 hplan3
      have hno1 : (⟨rel, pc, false, false⟩ : PendingOp).relative_path ∉
          ops1.map (fun o => o.relative_path) := by
        rw [hrels1]
        exact hpre
      have hno3 : (⟨rel, pc, false, false⟩ : PendingOp).relative_path ∉
          ops3.map (fun o => o.relative_path) := by
        rw [hrels3]
        exact hpost
      have hat := execOps_at (loadState w) fa ops1 ⟨rel, pc, false, false⟩ ops3 0
        ⟨w.target, w.backup, w.backupDirs, loadState w, []⟩ es hexec hno1 hno3
      have hfresh : freshBackup (loadState w) ⟨rel, pc, false, false⟩ = false := rfl
      obtain ⟨hbak, hstate⟩ := hat.2.2 hfresh
      refine ⟨?_, ?_, ?_, es.new_state, ?_, ?_⟩
      · rw [hcons]
        intro hmem
        have := promptedPaths_conflict w (loadState w) res cands rel hmem
        rw [hcc] at this
        cases this
      · rw [hworld]
        exact hat.1
      · rw [hworld]
        exact hbak
      · rw [hworld]
      · exact hstate

/-- **C3 (amended).**  If a tracked entry has a backup (`has_backup = true`,
i.e. the file existed before any patching), the target file is present and
unmodified (its fingerprint equals the recorded `patched_checksum`, so no
conflict resolution is invoked for it), and an apply containing that path
succeeds, then the new state entry keeps the previously recorded
`original_checksum` unchanged — regardless of the (possibly changed) patch
content `pc` — and keeps `has_backup = true`. -/
theorem apply_preserves_recorded_baseline (w : World)
    (cands : List (Path × Content)) (res : Resolver) (fa : Option Nat)
    (rel : Path) (e : PatchedFile) (pc c : Content) (n : Nat)
    (htrk : lookupState (loadState w) rel = some e)
    (hbk : e.has_backup = true)
    (htgt : w.target rel = some c)
    (hnoc : computeChecksum c = e.patched_checksum)
    (hcand : lookupFM cands rel = some pc)
    (hnd : nodupKeys cands)
    (hout : (applyModel w (some cands) res fa).outcome = .success n) :
    ∃ st', (applyModel w (some cands) res fa).world.stateFile = some st' ∧
      lookupState st' rel =
        some ⟨rel, e.original_checksum, computeChecksum pc, true⟩ := by
  obtain ⟨ops, es, htr, hne, hplan, hexec, hworld, hcons⟩ :=
    applyModel_success_inv w cands res fa n hout
  obtain ⟨pre, post, hsplit, hpre⟩ := lookupFM_split cands rel pc hcand
  have hpost : rel ∉ keysOf post := by
    rw [hsplit] at hnd
    exact nodupKeys_split pre rel pc post hnd
  rw [hsplit] at hplan
  obtain ⟨ops1, ops2', hplan1, hplan2, hops⟩ :=
    planOps_append_some w (loadState w) res pre ((rel, pc) :: post) ops hplan
  have hcc : candConflict w (loadState w) rel = false :=
    candConflict_no_modified w (loadState w) rel e c htrk htgt hnoc
  have hisSome : (w.target rel).isSome = true := by
    rw [htgt]
    rfl
  have hpc2 : planCand w (loadState w) res (rel, pc) =
      some ⟨rel, pc, true, false⟩ := by
    have h0 := planCand_no_conflict w (loadState w) res (rel, pc) hcc
    rw [hisSome] at h0
    exact h0
  rw [planOps_cons] at hplan2
  simp only [hpc2] at hplan2
  cases hplan3 : planOps w (loadState w) res post with
  | none =>
      rw [hplan3, Option.map_none'] at hplan2
      cases hplan2
  | some ops3 =>
      rw [hplan3, Option.map_some'] at hplan2
      injection hplan2 with hops2
      subst hops2
      rw [hops] at hexec
      have hrels1 := planOps_rels w (loadState w) res pre ops1 hplan1
      have hrels3 := planOps_rels w (loadState w) res post ops3 hplan3
      have hno1 : (⟨rel, pc, true, false⟩ : PendingOp).relative_path ∉
          ops1.map (fun o => o.relative_path) := by
        rw [hrels1]
        exact hpre
      have hno3 : (⟨rel, pc, true, false⟩ : PendingOp).relative_path ∉
          ops3.map (fun o => o.relative_path) := by
        rw [hrels3]
        exact hpost
      have hat := execOps_at (loadState w) fa ops1 ⟨rel, pc, true, false⟩ ops3 0
        ⟨w.target, w.backup, w.backupDirs, loadState w, []⟩ es hexec hno1 hno3
      have hfresh : freshBackup (loadState w) ⟨rel, pc, true, false⟩ = false :=
        freshBackup_of_kept (loadState w) ⟨rel, pc, true, false⟩ e htrk hbk rfl
      obtain ⟨hbak, hstate⟩ := hat.2.2 hfresh
      refine ⟨es.new_state, by rw [hworld], ?_⟩
      rw [hstate, htrk]
      rfl

theorem revertModel_run (w : World) (st : StateMap)
    (hst : w.stateFile = some st) (hne : st ≠ []) :
    revertModel w =
      ⟨{ w with
          target := (st.foldl (fun tb pe => restore_file tb.1 tb.2 pe.1 true)
            (w.target, w.backup)).1
          backup := (st.foldl (fun tb pe => restore_file tb.1 tb.2 pe.1 true)
            (w.target, w.backup)).2
          stateFile := none
          backupDirs := pruneDirs
            (st.foldl (fun tb pe => restore_file tb.1 tb.2 pe.1 true)
              (w.target, w.backup)).2 w.backupDirs },
       st.length⟩ := by
  unfold revertModel
  rw [loadState_some w st hst]
  simp only [isEmpty_false_of_ne_nil st hne, Bool.false_eq_true, if_false]

/-- **C1 (amended).**  From a fresh start — no patch state and an empty
backup tree — an `apply` of any non-empty patch source succeeds with no
conflict resolution invoked, and running `revert` immediately afterwards
restores every target path to its pre-apply condition: pre-existing files to
their exact byte content, and every file `apply` newly created is removed. -/
theorem apply_revert_roundtrip_fresh (w : World)
    (cands : List (Path × Content)) (res : Resolver)
    (hst : w.stateFile = none) (hbak : w.backup = [])
    (htr : w.targetRootExists = true)
    (hne : cands ≠ []) (hnd : nodupKeys cands) :
    (applyModel w (some cands) res none).outcome = .success cands.length ∧
    (applyModel w (some cands) res none).consulted = [] ∧
    ∀ p, (revertModel (applyModel w (some cands) res none).world).world.target p
      = w.target p := by
  have hload : loadState w = [] := by
    rw [loadState, hst]
    rfl
  have hneF : cands.isEmpty = false := isEmpty_false_of_ne_nil cands hne
  have hplan : planOps w (loadState w) res cands =
      some (cands.map (fun c =>
        (⟨c.1, c.2, (w.target c.1).isSome, false⟩ : PendingOp))) := by
    rw [hload]
    exact planOps_nil_state w res cands
  have hprompt : promptedPaths w (loadState w) res cands = [] := by
    rw [hload]
    exact promptedPaths_nil_state w res cands
  have hnb : ∀ op ∈ cands.map (fun c =>
      (⟨c.1, c.2, (w.target c.1).isSome, false⟩ : PendingOp)),
      op.needs_backup = true →
      ((⟨w.target, w.backup, w.backupDirs, loadState w, []⟩ : ExecSt).target
        op.relative_path).isSome = true := by
    intro op hop hn
    obtain ⟨c, _, rfl⟩ := List.mem_map.mp hop
    exact hn
  obtain ⟨es, hexec⟩ := execOps_ok_of (loadState w)
    (cands.map (fun c => (⟨c.1, c.2, (w.target c.1).isSome, false⟩ : PendingOp)))
    0 ⟨w.target, w.backup, w.backupDirs, loadState w, []⟩ hnb
  have hrun := applyModel_run w cands res none
    (cands.map (fun c => (⟨c.1, c.2, (w.target c.1).isSome, false⟩ : PendingOp)))
    htr hneF hplan
  simp only [hexec] at hrun
  have hrels : (cands.map (fun c =>
      (⟨c.1, c.2, (w.target c.1).isSome, false⟩ : PendingOp))).map
      (fun o => o.relative_path) = cands.map Prod.fst :=
    planOps_rels w (loadState w) res cands _ hplan
  have hlen : es.patched.length = cands.length := by
    have hp := execOps_patched (loadState w) none _ 0 _ es hexec
    rw [hp]
    show (([] : List Path) ++ _).length = _
    rw [List.nil_append, hrels, List.length_map]
  have hpoint : ∀ p, p ∈ keysOf cands →
      (∃ ent, lookupState es.new_state p = some ent) ∧
      lookupFM es.backup p = w.target p := by
    intro p hp
    obtain ⟨pc, hpc⟩ := lookupFM_isSome_of_mem_keys cands p hp
    obtain ⟨pre, post, hsplit, hpre⟩ := lookupFM_split cands p pc hpc
    have hpost : p ∉ keysOf post :=
      nodupKeys_split pre p pc post (hsplit ▸ hnd)
    have hmapsplit : cands.map (fun c =>
        (⟨c.1, c.2, (w.target c.1).isSome, false⟩ : PendingOp)) =
        pre.map (fun c => (⟨c.1, c.2, (w.target c.1).isSome, false⟩ : PendingOp)) ++
        (⟨p, pc, (w.target p).isSome, false⟩ : PendingOp) ::
        post.map (fun c => (⟨c.1, c.2, (w.target c.1).isSome, false⟩ : PendingOp)) := by
      rw [hsplit, List.map_append, List.map_cons]
    have hrels1 : (pre.map (fun c =>
        (⟨c.1, c.2, (w.target c.1).isSome, false⟩ : PendingOp))).map
        (fun o => o.relative_path) = pre.map Prod.fst :=
      planOps_rels w [] res pre _ (planOps_nil_state w res pre)
    have hrels3 : (post.map (fun c =>
        (⟨c.1, c.2, (w.target c.1).isSome, false⟩ : PendingOp))).map
        (fun o => o.relative_path) = post.map Prod.fst :=
      planOps_rels w [] res post _ (planOps_nil_state w res post)
    have hno1 : (⟨p, pc, (w.target p).isSome, false⟩ : PendingOp).relative_path ∉
        (pre.map (fun c =>
          (⟨c.1, c.2, (w.target c.1).isSome, false⟩ : PendingOp))).map
          (fun o => o.relative_path) := by
      rw [hrels1]
      exact hpre
    have hno3 : (⟨p, pc, (w.target p).isSome, false⟩ : PendingOp).relative_path ∉
        (post.map (fun c =>
          (⟨c.1, c.2, (w.target c.1).isSome, false⟩ : PendingOp))).map
          (fun o => o.relative_path) := by
      rw [hrels3]
      exact hpost
    have hexec2 : execOps (loadState w) none
        (pre.map (fun c => (⟨c.1, c.2, (w.target c.1).isSome, false⟩ : PendingOp)) ++
         (⟨p, pc, (w.target p).isSome, false⟩ : PendingOp) ::
         post.map (fun c => (⟨c.1, c.2, (w.target c.1).isSome, false⟩ : PendingOp)))
        0 ⟨w.target, w.backup, w.backupDirs, loadState w, []⟩ = .ok es := by
      rw [← hmapsplit]
      exact hexec
    have hat := execOps_at (loadState w) none _ _ _ 0 _ es hexec2 hno1 hno3
    have hfr : freshBackup (loadState w)
        (⟨p, pc, (w.target p).isSome, false⟩ : PendingOp) = (w.target p).isSome := by
      rw [hload]
      exact freshBackup_of_untracked [] _ rfl
    cases htp : w.target p with
    | none =>
        have hfr2 : freshBackup (loadState w)
            (⟨p, pc, (w.target p).isSome, false⟩ : PendingOp) = false :=
          hfr.trans (by simp [htp])
        obtain ⟨hbak2, hstate2⟩ := hat.2.2 hfr2
        refine ⟨⟨_, hstate2⟩, ?_⟩
        rw [hbak2]
        show lookupFM w.backup p = none
        rw [hbak]
        rfl
    | some tc =>
        have hfr2 : freshBackup (loadState w)
            (⟨p, pc, (w.target p).isSome, false⟩ : PendingOp) = true :=
          hfr.trans (by simp [htp])
        obtain ⟨tc', htc', hbak2, hstate2⟩ := hat.2.1 hfr2
        have htc'' : w.target p = some tc' := htc'
        rw [htp] at htc''
        injection htc'' with htcq
        subst htcq
        exact ⟨⟨_, hstate2⟩, hbak2⟩
  have hframe : ∀ p, p ∉ keysOf cands →
      es.target p = w.target p ∧ lookupState es.new_state p = none := by
    intro p hp
    have hp2 : p ∉ (cands.map (fun c =>
        (⟨c.1, c.2, (w.target c.1).isSome, false⟩ : PendingOp))).map
        (fun o => o.relative_path) := by
      rw [hrels]
      exact hp
    obtain ⟨ht, hb, hs⟩ := execOps_frame (loadState w) none _ 0 _ es hexec p hp2
    refine ⟨ht, ?_⟩
    rw [hs]
    show lookupState (loadState w) p = none
    rw [hload]
    rfl
  have hnd1 : nodupKeys es.new_state := by
    refine execOps_nodup (loadState w) none _ 0 _ es hexec ?_
    show nodupKeys (loadState w)
    rw [hload]
    exact nodupKeys_nil
  have hne1 : es.new_state ≠ [] := by
    have hkey : ∃ q, q ∈ keysOf cands := by
      cases cands with
      | nil => exact absurd rfl hne
      | cons c0 cs => exact ⟨c0.1, List.mem_cons_self _ _⟩
    obtain ⟨q, hq⟩ := hkey
    obtain ⟨⟨ent, hent⟩, _⟩ := hpoint q hq
    intro hnil
    rw [hnil] at hent
    cases hent
  refine ⟨by rw [hrun, hlen], by rw [hrun, hprompt], ?_⟩
  intro p
  rw [hrun]
  rw [revertModel_run _ es.new_state rfl hne1]
  by_cases hp : p ∈ keysOf cands
  · obtain ⟨⟨ent, hent⟩, hbw⟩ := hpoint p hp
    have hmem : (p, ent) ∈ es.new_state := lookupState_mem _ _ _ hent
    obtain ⟨h1, _⟩ := revertFold_at es.new_state es.target es.backup p ent hnd1 hmem
    exact h1.trans hbw
  · obtain ⟨ht, hs⟩ := hframe p hp
    have hnotkey : p ∉ keysOf es.new_state := (lookupState_eq_none_iff _ _).mp hs
    obtain ⟨h1, _⟩ := revertFold_frame es.new_state es.target es.backup p hnotkey
    exact h1.trans ht

/-! ### Witness scenarios -/

/-- Fresh-start world for the round-trip witness. -/
def c1W : World where
  targetRootExists := true
  target := fun p => if p = ["a"] then some "orig" else none
  backup := []
  backupDirs := []
  stateFile := none

theorem apply_revert_roundtrip_fresh_witness :
    c1W.stateFile = none ∧ c1W.backup = [] ∧ c1W.targetRootExists = true ∧
    ([(["a"], "new"), (["b"], "nb")] : List (Path × Content)) ≠ [] ∧
    nodupKeys ([(["a"], "new"), (["b"], "nb")] : List (Path × Content)) ∧
    (applyModel c1W (some [(["a"], "new"), (["b"], "nb")]) abortResolver
      none).outcome = .success 2 ∧
    (applyModel c1W (some [(["a"], "new"), (["b"], "nb")]) abortResolver
      none).consulted = [] ∧
    (revertModel (applyModel c1W (some [(["a"], "new"), (["b"], "nb")])
      abortResolver none).world).world.target ["a"] = c1W.target ["a"] ∧
    (revertModel (applyModel c1W (some [(["a"], "new"), (["b"], "nb")])
      abortResolver none).world).world.target ["b"] = c1W.target ["b"] := by
  have h := apply_revert_roundtrip_fresh c1W [(["a"], "new"), (["b"], "nb")]
    abortResolver rfl rfl rfl (by decide) (by decide)
  exact ⟨rfl, rfl, rfl, by decide, by decide, h.1, h.2.1, h.2.2 ["a"], h.2.2 ["b"]⟩

/-- A previously patched world (entry with a backup) for the
baseline-preservation witness; the patch content then changes to `P2`. -/
def c3W : World where
  targetRootExists := true
  target := fun p => if p = ["a"] then some "P1" else none
  backup := [(["a"], "A0")]
  backupDirs := []
  stateFile := some [(["a"], ⟨["a"], some "A0", "P1", true⟩)]

theorem apply_preserves_recorded_baseline_witness :
    lookupState (loadState c3W) ["a"] = some ⟨["a"], some "A0", "P1", true⟩ ∧
    (⟨["a"], some "A0", "P1", true⟩ : PatchedFile).has_backup = true ∧
    c3W.target ["a"] = some "P1" ∧
    computeChecksum "P1" = (⟨["a"], some "A0", "P1", true⟩ :
      PatchedFile).patched_checksum ∧
    lookupFM [(["a"], "P2")] ["a"] = some "P2" ∧
    nodupKeys ([(["a"], "P2")] : List (Path × Content)) ∧
    (applyModel c3W (some [(["a"], "P2")]) abortResolver none).outcome =
      .success 1 ∧
    ∃ st', (applyModel c3W (some [(["a"], "P2")]) abortResolver
        none).world.stateFile = some st' ∧
      lookupState st' ["a"] =
        some ⟨["a"], (⟨["a"], some "A0", "P1", true⟩ :
          PatchedFile).original_checksum, computeChecksum "P2", true⟩ := by
  refine ⟨by decide, rfl, rfl, rfl, by decide, by decide, by decide, ?_⟩
  exact apply_preserves_recorded_baseline c3W [(["a"], "P2")] abortResolver none
    ["a"] ⟨["a"], some "A0", "P1", true⟩ "P2" "P1" 1 (by decide) rfl rfl rfl
    (by decide) (by decide) (by decide)

/-- A world with a detected conflict (live content `X`, recorded patched
fingerprint `P`) for the abort witness. -/
def c4W : World where
  targetRootExists := true
  target := fun p => if p = ["a"] then some "X" else none
  backup := [(["a"], "O")]
  backupDirs := []
  stateFile := some [(["a"], ⟨["a"], some "O", "P", true⟩)]

theorem apply_abort_zero_side_effects_witness :
    c4W.targetRootExists = true ∧
    (∃ ops1, planOps c4W (loadState c4W) abortResolver [] = some ops1) ∧
    candConflict c4W (loadState c4W) (["a"], "N").1 = true ∧
    abortResolver (["a"], "N").1 = .abort ∧
    (applyModel c4W (some ([] ++ (["a"], "N") :: [])) abortResolver
      none).world = c4W ∧
    (applyModel c4W (some ([] ++ (["a"], "N") :: [])) abortResolver
      none).outcome = .aborted ∧
    exitCode (applyModel c4W (some ([] ++ (["a"], "N") :: [])) abortResolver
      none).outcome = 0 := by
  have h := apply_abort_zero_side_effects c4W abortResolver none [] []
    (["a"], "N") rfl ⟨[], rfl⟩ (by decide) rfl
  exact ⟨rfl, ⟨[], rfl⟩, by decide, rfl, h.1, h.2.1, h.2.2⟩

/-- A tracked state with two entries (one with a backup, one without) for the
revert witness. -/
def c5State : StateMap :=
  [(["d", "x"], ⟨["d", "x"], some "bx", "px", true⟩),
   (["y"], ⟨["y"], none, "py", false⟩)]

/-- The world the revert witness reverts. -/
def c5W : World where
  targetRootExists := true
  target := fun p =>
    if p = ["d", "x"] then some "px" else if p = ["y"] then some "py" else none
  backup := [(["d", "x"], "bx")]
  backupDirs := [["d"]]
  stateFile := some c5State

theorem revert_restores_and_prunes_witness :
    c5W.stateFile = some c5State ∧ c5State ≠ [] ∧ nodupKeys c5State ∧
    (revertModel c5W).world.target ["d", "x"] = lookupFM c5W.backup ["d", "x"] ∧
    lookupFM (revertModel c5W).world.backup ["d", "x"] = none ∧
    (revertModel c5W).world.target ["y"] = lookupFM c5W.backup ["y"] ∧
    (revertModel c5W).world.target ["z"] = c5W.target ["z"] ∧
    (revertModel c5W).world.stateFile = none ∧
    (revertModel c5W).reverted = c5State.length := by
  have h := revert_restores_and_prunes c5W c5State rfl (by decide) (by decide)
  exact ⟨rfl, by decide, by decide,
    (h.1 ["d", "x"] ⟨["d", "x"], some "bx", "px", true⟩ (by decide)).1,
    (h.1 ["d", "x"] ⟨["d", "x"], some "bx", "px", true⟩ (by decide)).2,
    (h.1 ["y"] ⟨["y"], none, "py", false⟩ (by decide)).1,
    (h.2.1 ["z"] (by decide)).1, h.2.2.1, h.2.2.2.1⟩

/-- A fresh world (empty state, so the invariant holds trivially before the
call) for the state-invariant witness. -/
def c6W : World where
  targetRootExists := true
  target := fun p => if p = ["a"] then some "A0" else none
  backup := []
  backupDirs := []
  stateFile := none

theorem state_invariant_preserved_witness :
    StateInv (loadState c6W) c6W.backup ∧
    (applyModel c6W (some [(["a"], "A1")]) abortResolver none).world.stateFile =
      some [(["a"], ⟨["a"], some "A0", "A1", true⟩)] ∧
    StateInv [(["a"], ⟨["a"], some "A0", "A1", true⟩)]
      (applyModel c6W (some [(["a"], "A1")]) abortResolver none).world.backup := by
  have hinv : StateInv (loadState c6W) c6W.backup := by
    intro p e h
    cases h
  refine ⟨hinv, by decide, ?_⟩
  exact state_invariant_preserved c6W (some [(["a"], "A1")]) abortResolver none
    hinv [(["a"], ⟨["a"], some "A0", "A1", true⟩)] (by decide)

/-- A world whose target root is missing, for the preconditions witness. -/
def c8Wmissing : World where
  targetRootExists := false
  target := fun _ => none
  backup := []
  backupDirs := []
  stateFile := none

/-- The same world with the target root present. -/
def c8W : World := { c8Wmissing with targetRootExists := true }

theorem apply_preconditions_witness :
    (c8Wmissing.targetRootExists = false ∧
     applyModel c8Wmissing (some [(["a"], "x")]) abortResolver none =
       ⟨c8Wmissing, .targetMissing, []⟩ ∧
     exitCode (applyModel c8Wmissing (some [(["a"], "x")]) abortResolver
       none).outcome = 1) ∧
    (c8W.targetRootExists = true ∧
     applyModel c8W none abortResolver none = ⟨c8W, .patchSourceMissing, []⟩ ∧
     exitCode (applyModel c8W none abortResolver none).outcome = 1) ∧
    (applyModel c8W (some []) abortResolver none = ⟨c8W, .noPatches, []⟩ ∧
     exitCode (applyModel c8W (some []) abortResolver none).outcome = 0) := by
  have h1 := (apply_preconditions c8Wmissing abortResolver none
    (some [(["a"], "x")])).1 rfl
  have h2 := (apply_preconditions c8W abortResolver none none).2.1 rfl rfl
  have h3 := (apply_preconditions c8W abortResolver none (some [])).2.2 rfl rfl
  exact ⟨⟨rfl, h1.1, h1.2⟩, ⟨rfl, h2.1, h2.2⟩, h3⟩

/-- A world tracking `a` (with a baseline and a backup on disk) whose target
file `a` is absent, for the C10 witness. -/
def c10W : World where
  targetRootExists := true
  target := fun _ => none
  backup := [(["a"], "OLD")]
  backupDirs := []
  stateFile := some [(["a"], ⟨["a"], some "OLD", "P", true⟩)]

theorem apply_absent_target_overwrites_entry_witness :
    lookupState (loadState c10W) ["a"] = some ⟨["a"], some "OLD", "P", true⟩ ∧
    c10W.target ["a"] = none ∧
    lookupFM [(["a"], "N")] ["a"] = some "N" ∧
    nodupKeys ([(["a"], "N")] : List (Path × Content)) ∧
    (applyModel c10W (some [(["a"], "N")]) abortResolver none).outcome =
      .success 1 ∧
    (["a"] ∉ (applyModel c10W (some [(["a"], "N")]) abortResolver
       none).consulted ∧
     (applyModel c10W (some [(["a"], "N")]) abortResolver
       none).world.target ["a"] = some "N" ∧
     lookupFM (applyModel c10W (some [(["a"], "N")]) abortResolver
       none).world.backup ["a"] = lookupFM c10W.backup ["a"] ∧
     ∃ st', (applyModel c10W (some [(["a"], "N")]) abortResolver
         none).world.stateFile = some st' ∧
       lookupState st' ["a"] = some ⟨["a"], none, computeChecksum "N", false⟩) := by
  refine ⟨by decide, rfl, by decide, by decide, by decide, ?_⟩
  exact apply_absent_target_overwrites_entry c10W [(["a"], "N")] abortResolver
    none ["a"] ⟨["a"], some "OLD", "P", true⟩ "N" 1 (by decide) rfl (by decide)
    (by decide) (by decide)

end GamePatcherModel
